import Mathlib

/-!
Shallow embedding of the osmpbfreader crate for specification checking.

The repository's `src/` holds only `lib.rs`, which re-exports the crate's
modules and defines the deprecated top-level `get_objs_and_deps` wrapper
(src/src/lib.rs:154-162).  The modules `objects`, `reader`, `groups`,
`blocks` and `par` are declared there but their code is not present under
`src/`, so every component below that lives in one of those modules is
modelled from the specification (spec.md), as marked in its doc comment.
-/

namespace Osm

/-- Modelled from the spec: error taxonomy of §7 (module `error` is absent
from src/): stream failure, structural malformation, unrecognized
compression kind, unsupported required feature, over-ceiling segment. -/
inductive Error where
  | ioError
  | formatError
  | unsupportedCompression
  | unsupportedFeature
  | blobTooLarge
  deriving DecidableEq, Repr

/-- Modelled from the spec: GeoId of §3 (module `objects` is absent from
src/): a kind-tagged identifier, one of node / way / relation over int64.
The source names it `OsmId`. -/
inductive OsmId where
  | node (i : Int)
  | way (i : Int)
  | relation (i : Int)
  deriving DecidableEq, Repr

/-- Rank of the kind tag, used for the kind-first total order of §3. -/
def OsmId.rank : OsmId → Nat
  | .node _ => 0
  | .way _ => 1
  | .relation _ => 2

/-- Numeric value of an id. -/
def OsmId.num : OsmId → Int
  | .node i => i
  | .way i => i
  | .relation i => i

/-- Modelled from the spec: total order on ids, first by kind, then by
numeric value (§3). -/
def OsmId.lt (a b : OsmId) : Bool :=
  a.rank < b.rank || (a.rank = b.rank && a.num < b.num)

/-- Modelled from the spec: a decoded point (§3): id, scaled coordinates
and tags.  Coordinates are the exact rationals produced by the scaling
formula of §4.2. -/
structure Node where
  id : Int
  lat : ℚ
  lon : ℚ
  tags : List (String × String)
  deriving DecidableEq, Repr

/-- Modelled from the spec: a path object (§3): id, ordered node-id
sequence and tags. -/
structure Way where
  id : Int
  nodes : List Int
  tags : List (String × String)
  deriving DecidableEq, Repr

/-- Modelled from the spec: a grouped relation (§3): id, ordered member
sequence of (id, role) and tags. -/
structure Relation where
  id : Int
  refs : List (OsmId × String)
  tags : List (String × String)
  deriving DecidableEq, Repr

/-- Modelled from the spec: GeoObject of §3, the closed sum of the three
object kinds.  The source names it `OsmObj`. -/
inductive OsmObj where
  | node (n : Node)
  | way (w : Way)
  | relation (r : Relation)
  deriving DecidableEq, Repr

/-- The kind-tagged id of an object. -/
def OsmObj.id : OsmObj → OsmId
  | .node n => .node n.id
  | .way w => .way w.id
  | .relation r => .relation r.id

/-- Modelled from the spec: the direct references of an object (§4.4):
a way contributes its node ids, a relation its member ids, a node none. -/
def OsmObj.deps : OsmObj → List OsmId
  | .node _ => []
  | .way w => w.nodes.map OsmId.node
  | .relation r => r.refs.map Prod.fst

/-- Modelled from the spec: the resolver's result map (§3), embedded as
an association list with one binding per key: insertion replaces the
binding of a present key and appends a fresh one.  The order of §3 keys
the real BTreeMap; its sorted iteration order is observable in no claim
and is not modelled. -/
def mapInsert {α : Type} (k : OsmId) (v : α) : List (OsmId × α) → List (OsmId × α)
  | [] => [(k, v)]
  | (k', v') :: rest =>
    if k = k' then (k, v) :: rest
    else (k', v') :: mapInsert k v rest

/-- Lookup in the embedded ordered map. -/
def mapFind {α : Type} (k : OsmId) : List (OsmId × α) → Option α
  | [] => none
  | (k', v') :: rest => if k = k' then some v' else mapFind k rest

/-- Modelled from the spec: the block-level context of §3 / §4.2 (modules
`osmformat` / `groups` are absent from src/): a string table referenced by
index, and optional coordinate granularity and lat/lon offsets with the
format's fixed defaults (granularity 100, offsets 0) when absent. -/
structure PrimitiveBlock where
  stringtable : List String
  granularity : Option Int
  lat_offset : Option Int
  lon_offset : Option Int
  deriving DecidableEq, Repr

/-- String-table lookup by index; an out-of-range index resolves to the
empty string (index 0 is reserved for it by the format). -/
def strGet (b : PrimitiveBlock) (i : Nat) : String :=
  b.stringtable.getD i ""

/-- Modelled from the spec: coordinate scaling of §4.2:
`actual = block_offset + (raw_delta_sum * block_granularity) / 1_000_000_000`,
with offset and granularity from the block-level fields, defaulting to the
format's fixed defaults (offset 0, granularity 100) when absent. -/
def makeCoord (granularity offset : Option Int) (raw : Int) : ℚ :=
  ((offset.getD 0 : Int) : ℚ) +
    ((raw : ℚ) * ((granularity.getD 100 : Int) : ℚ)) / 1000000000

/-- Latitude scaling of a raw cumulative value within a block. -/
def makeLat (b : PrimitiveBlock) (raw : Int) : ℚ :=
  makeCoord b.granularity b.lat_offset raw

/-- Longitude scaling of a raw cumulative value within a block. -/
def makeLon (b : PrimitiveBlock) (raw : Int) : ℚ :=
  makeCoord b.granularity b.lon_offset raw

/-- Modelled from the spec: the bulk-point group of §4.2: parallel
delta-coded id / latitude / longitude arrays and one flat tag index
sequence with 0 as a record separator. -/
structure DenseNodes where
  ids : List Int
  lats : List Int
  lons : List Int
  keys_vals : List Nat
  deriving DecidableEq, Repr

/-- Modelled from the spec: an individual point record of §4.2: own id,
raw latitude and longitude, and tags as parallel key/value index arrays. -/
structure RawNode where
  id : Int
  lat : Int
  lon : Int
  keys : List Nat
  vals : List Nat
  deriving DecidableEq, Repr

/-- Modelled from the spec: consume one record's tags from the flat
bulk-point tag sequence (§4.2): a leading 0 is the record separator,
otherwise consecutive (key-index, value-index) pairs are resolved through
the string table until the next separator; returns the record's tags and
the remaining sequence. -/
def takeTags (b : PrimitiveBlock) : List Nat → List (String × String) × List Nat
  | [] => ([], [])
  | 0 :: rest => ([], rest)
  | k :: [] => ([(strGet b k, "")], [])
  | k :: v :: rest =>
    let (ts, r) := takeTags b rest
    ((strGet b k, strGet b v) :: ts, r)

/-- Modelled from the spec: delta reconstruction as a running sum over the
stored deltas with explicit carried state, as the bulk-point decoder
performs it (§4.2). -/
def denseGo (b : PrimitiveBlock) :
    List (Int × Int × Int) → Int → Int → Int → List Nat → List Node
  | [], _, _, _, _ => []
  | (di, dla, dlo) :: rest, pid, plat, plon, kvs =>
    let id := pid + di
    let la := plat + dla
    let lo := plon + dlo
    let (tags, kvs') := takeTags b kvs
    { id := id, lat := makeLat b la, lon := makeLon b lo, tags := tags } ::
      denseGo b rest id la lo kvs'

/-- Modelled from the spec: bulk-point ("dense nodes") group flattening of
§4.2; a parallel-array length mismatch yields `formatError` with no
partial recovery. -/
def dense_nodes (b : PrimitiveBlock) (g : DenseNodes) : Except Error (List Node) :=
  if g.ids.length = g.lats.length ∧ g.ids.length = g.lons.length then
    .ok (denseGo b (g.ids.zip (g.lats.zip g.lons)) 0 0 0 g.keys_vals)
  else .error .formatError

/-- Modelled from the spec: decoding of one individual point (§4.2): own
id, scaled coordinates, tags resolved through the string table. -/
def simple_node (b : PrimitiveBlock) (n : RawNode) : Node :=
  { id := n.id
    lat := makeLat b n.lat
    lon := makeLon b n.lon
    tags := (n.keys.zip n.vals).map fun p => (strGet b p.1, strGet b p.2) }

/-- Modelled from the spec: individual-point group flattening of §4.2; a
key/value parallel-array length mismatch yields `formatError`. -/
def simple_nodes (b : PrimitiveBlock) (ns : List RawNode) : Except Error (List Node) :=
  if ns.all fun n => n.keys.length = n.vals.length then
    .ok (ns.map (simple_node b))
  else .error .formatError

/-- Running sum of a delta sequence: the reference reconstruction
`value[0] = delta[0]`, `value[i] = value[i-1] + delta[i]` of §4.2. -/
def runningSum (acc : Int) : List Int → List Int
  | [] => []
  | d :: ds => (acc + d) :: runningSum (acc + d) ds

/-- Interleaving of parallel key/value index arrays into the flat
bulk-point tag sequence: k1, v1, k2, v2, …. -/
def interleave : List Nat → List Nat → List Nat
  | [], _ => []
  | _ :: _, [] => []
  | k :: ks, v :: vs => k :: v :: interleave ks vs

/-- Modelled from the spec: the DependencyResolver of §4.4 consumes the
decode results of one full sequential scan: a file, at its boundary, is
the ordered sequence of per-segment decode results, each either a decode
error or the segment's flattened objects. -/
def Blocks : Type := List (Except Error (List OsmObj))

/-- All objects of a file in scan order (decode errors contribute none). -/
def blocksObjs (file : Blocks) : List OsmObj :=
  file.foldr (fun b acc => match b with | .error _ => acc | .ok os => os ++ acc) []

/-- The first decode error of a scan, if any. -/
def firstErr (file : Blocks) : Option Error :=
  match file with
  | [] => none
  | .error e :: _ => some e
  | .ok _ :: rest => firstErr rest

/-- Total object count of a file, used as the resolver's pass bound. -/
def objCount (file : Blocks) : Nat := (blocksObjs file).length

/-- Modelled from the spec: one full sequential scan of §4.4: step through
every decoded object in file order, threading a state; the first decode
error aborts the scan with that error (§4.4 Failure). -/
def scanBlocks {σ : Type} (step : σ → OsmObj → σ) : Blocks → σ → Except Error σ
  | [], st => .ok st
  | .error e :: _, _ => .error e
  | .ok os :: rest, st => scanBlocks step rest (os.foldl step st)

/-- Modelled from the spec: add an object's direct references to a wanted
set, excluding ids already present in the result map (§4.4 steps 1-2 and
the cycle rule) and ids already wanted. -/
def addDeps (objs : List (OsmId × OsmObj)) (w : List OsmId) (ds : List OsmId) :
    List OsmId :=
  ds.foldl (fun acc d =>
    if (mapFind d objs).isSome || decide (d ∈ acc) then acc else acc ++ [d]) w

/-- Modelled from the spec: the per-object step of the resolver's first
pass (§4.4 step 1): insert every predicate-matched object keyed by its id
and add its direct references to the wanted set. -/
def firstPassStep (pred : OsmObj → Bool)
    (st : List (OsmId × OsmObj) × List OsmId) (o : OsmObj) :
    List (OsmId × OsmObj) × List OsmId :=
  if pred o then
    let objs := mapInsert o.id o st.1
    (objs, addDeps objs st.2 o.deps)
  else st

/-- Modelled from the spec: the per-object step of a rescan pass (§4.4
step 2): when the object's id is wanted and not yet in the result map,
insert it, drop the id from the current wanted set, and union the
object's direct references into the fresh wanted set for the next pass.
State: (result map, current wanted set, next wanted set). -/
def passStep (st : List (OsmId × OsmObj) × List OsmId × List OsmId) (o : OsmObj) :
    List (OsmId × OsmObj) × List OsmId × List OsmId :=
  if decide (o.id ∈ st.2.1) && (mapFind o.id st.1).isNone then
    let objs := mapInsert o.id o st.1
    (objs, st.2.1.filter (fun x => decide (x ≠ o.id)), addDeps objs st.2.2 o.deps)
  else st

/-- Modelled from the spec: the rewind-and-rescan loop of §4.4 steps 2-3:
while the wanted set is non-empty, rescan the whole file from the start;
terminate when a pass leaves the next wanted set empty.  The fuel
parameter bounds the pass count; the caller supplies one more than the
file's object count, which a progress argument shows is never exhausted. -/
def resolveLoop (file : Blocks) :
    Nat → List (OsmId × OsmObj) → List OsmId → Except Error (List (OsmId × OsmObj))
  | 0, objs, _ => .ok objs
  | fuel + 1, objs, wanted =>
    if wanted.isEmpty then .ok objs
    else
      match scanBlocks passStep file (objs, wanted, []) with
      | .error e => .error e
      | .ok (objs', _, nw) => resolveLoop file fuel objs' nw

/-- Modelled from the spec: the dependency-closure query of §4.4 at the
resolver's boundary: a predicate-matching first pass, then the
rewind-and-rescan loop to the fixed point; any decode error in any pass
is returned and the partial accumulation discarded. -/
def resolve (file : Blocks) (pred : OsmObj → Bool) :
    Except Error (List (OsmId × OsmObj)) :=
  match scanBlocks (firstPassStep pred) file ([], []) with
  | .error e => .error e
  | .ok (objs, wanted) => resolveLoop file (objCount file + 1) objs wanted

/-- Modelled from the spec: record framing of §4.1/§6 (module `reader` is
absent from src/): a record is a 4-byte big-endian header length, the
header bytes, and the body bytes whose count the header declares.  The
header decode and the body's block decode belong to the external
serialization layer (out of scope per §1) and are passed in as `dh` and
`db`; a truncated stream fails with `ioError`.  End-of-stream is an empty
byte sequence at a record boundary.  The fuel is spent one record per
step; a record consumes at least its 4 prefix bytes, so the caller's
`length + 1` fuel is never exhausted. -/
def readRecordsAux (dh : List Nat → Except Error Nat)
    (db : List Nat → List Nat → Except Error (List OsmObj)) :
    Nat → List Nat → Blocks
  | 0, _ => []
  | fuel + 1, bytes =>
    match bytes with
    | [] => []
    | b0 :: b1 :: b2 :: b3 :: rest =>
      let n := ((b0 * 256 + b1) * 256 + b2) * 256 + b3
      if n ≤ rest.length then
        match dh (rest.take n) with
        | .error e => [.error e]
        | .ok bodyLen =>
          let rest1 := rest.drop n
          if bodyLen ≤ rest1.length then
            db (rest.take n) (rest1.take bodyLen) ::
              readRecordsAux dh db fuel (rest1.drop bodyLen)
          else [.error .ioError]
      else [.error .ioError]
    | _ => [.error .ioError]

/-- Modelled from the spec: the reader over a seekable byte source (§6):
the raw bytes together with the external serialization layer's header and
block decoders. -/
structure OsmPbfReader where
  bytes : List Nat
  dh : List Nat → Except Error Nat
  db : List Nat → List Nat → Except Error (List OsmObj)

/-- The reader's lazy sequence of decoded blocks (flattened to the decode
results the resolver consumes). -/
def OsmPbfReader.blocks (r : OsmPbfReader) : Blocks :=
  readRecordsAux r.dh r.db (r.bytes.length + 1) r.bytes

/-- Modelled from the spec: the flattened-object sequence of §6: each item
a result value — a block's decode error once, or each of its objects. -/
def OsmPbfReader.iter (r : OsmPbfReader) : List (Except Error OsmObj) :=
  r.blocks.foldr
    (fun b acc =>
      match b with
      | .error e => .error e :: acc
      | .ok os => os.map Except.ok ++ acc) []

/-- Modelled from the spec: `OsmPbfReader::get_objs_and_deps` (§4.4, §6),
the method the deprecated free function of src/src/lib.rs:154-162
delegates to. -/
def OsmPbfReader.get_objs_and_deps (r : OsmPbfReader) (pred : OsmObj → Bool) :
    Except Error (List (OsmId × OsmObj)) :=
  resolve r.blocks pred

/-- Embedded from src/src/lib.rs:154-162: the deprecated top-level
`get_objs_and_deps`, whose body is `reader.get_objs_and_deps(pred)`. -/
def get_objs_and_deps (reader : OsmPbfReader) (pred : OsmObj → Bool) :
    Except Error (List (OsmId × OsmObj)) :=
  OsmPbfReader.get_objs_and_deps reader pred

/-- Lookup of a slot index in the reorder buffer. -/
def slotFind {β : Type} (i : Nat) : List (Nat × β) → Option β
  | [] => none
  | p :: rest => if p.1 = i then some p.2 else slotFind i rest

/-- Removal of the first entry of a slot index from the reorder buffer. -/
def slotErase {β : Type} (i : Nat) : List (Nat × β) → List (Nat × β)
  | [] => []
  | p :: rest => if p.1 = i then rest else p :: slotErase i rest

/-- Modelled from the spec: the observable state of the ConcurrentPipeline
of §4.3: the count of segments dispatched so far (submission indices are
handed out in increasing order), the submission indices currently being
decoded by workers, the reorder buffer of finished results addressed by
submission index, the count of blocks already emitted, and the emitted
output. -/
structure PipeState (β : Type) where
  dispatched : Nat
  inflight : List Nat
  done : List (Nat × β)
  emitted : Nat
  out : List β
  deriving Repr

/-- Modelled from the spec: the consumer side of §4.3: emit from the
reorder buffer while the next-in-order slot is filled; suspend (stop)
when it is not.  Fuel is one emission per unit; the callers supply at
least the buffer length, which suffices since every emission removes a
buffer entry. -/
def drain {β : Type} : Nat → PipeState β → PipeState β
  | 0, st => st
  | f + 1, st =>
    match slotFind st.emitted st.done with
    | none => st
    | some v =>
      drain f
        { dispatched := st.dispatched, inflight := st.inflight,
          done := slotErase st.emitted st.done,
          emitted := st.emitted + 1, out := st.out ++ [v] }

/-- Modelled from the spec: one scheduling step of the ConcurrentPipeline
of §4.3 over the per-segment results `work`: dispatch the next submission
index while the in-flight window is below the worker count `K` and
segments remain; otherwise let the worker chosen by the adversarial
oracle value `c` finish — its result is placed in the reorder buffer slot
of its submission index, never yielded directly — and then emit every
ready in-order slot.  With nothing in flight and nothing to dispatch the
pipeline is finished and the state is fixed. -/
def pipeStep {β : Type} (work : List β) (d : β) (K : Nat) (c : Nat)
    (st : PipeState β) : PipeState β :=
  if st.inflight.length < K ∧ st.dispatched < work.length then
    { dispatched := st.dispatched + 1, inflight := st.inflight ++ [st.dispatched],
      done := st.done, emitted := st.emitted, out := st.out }
  else if st.inflight.isEmpty then st
  else
    let j := st.inflight.getD (c % st.inflight.length) 0
    drain (st.done.length + 1)
      { dispatched := st.dispatched, inflight := st.inflight.erase j,
        done := st.done ++ [(j, work.getD j d)],
        emitted := st.emitted, out := st.out }

/-- Iterate the pipeline scheduler, feeding the oracle the remaining step
budget as its clock. -/
def pipeRun {β : Type} (work : List β) (d : β) (K : Nat) (oracle : Nat → Nat) :
    Nat → PipeState β → PipeState β
  | 0, st => st
  | t + 1, st => pipeRun work d K oracle t (pipeStep work d K (oracle t) st)

/-- Modelled from the spec: the ConcurrentPipeline of §4.3 end to end:
run the scheduler from the empty state for enough steps to dispatch and
complete every segment, and return the emitted output. -/
def runPipeline {β : Type} (work : List β) (d : β) (K : Nat)
    (oracle : Nat → Nat) : List β :=
  (pipeRun work d K oracle (2 * work.length) ⟨0, [], [], 0, []⟩).out

/-- Invariant of the pipeline scheduler: submission indices below
`emitted` are delivered (in order), the in-flight and reorder-buffer
indices partition the rest of the dispatched range, and every buffered
result is its segment's decode result. -/
structure PipeInv {β : Type} (work : List β) (d : β) (st : PipeState β) : Prop where
  dispatched_le : st.dispatched ≤ work.length
  counts : st.emitted + st.inflight.length + st.done.length = st.dispatched
  out_eq : st.out = work.take st.emitted
  coverage : ∀ i, st.emitted ≤ i → i < st.dispatched →
    i ∈ st.inflight ∨ (slotFind i st.done).isSome = true
  inflight_ok : ∀ i ∈ st.inflight,
    st.emitted ≤ i ∧ i < st.dispatched ∧ slotFind i st.done = none
  done_ok : ∀ p ∈ st.done,
    st.emitted ≤ p.1 ∧ p.1 < st.dispatched ∧ p.2 = work.getD p.1 d
  done_nodup : (st.done.map Prod.fst).Nodup
  inflight_nodup : st.inflight.Nodup

-- ## Helper lemmas

theorem mapFind_insert_self {α : Type} (k : OsmId) (v : α) (m : List (OsmId × α)) :
    mapFind k (mapInsert k v m) = some v := by
  induction m with
  | nil => simp [mapInsert, mapFind]
  | cons p rest ih =>
    obtain ⟨k', v'⟩ := p
    by_cases h : k = k'
    · simp [mapInsert, h, mapFind]
    · simp [mapInsert, h, mapFind, ih]

theorem mapFind_insert_ne {α : Type} (k k0 : OsmId) (v : α) (m : List (OsmId × α))
    (h : k0 ≠ k) : mapFind k0 (mapInsert k v m) = mapFind k0 m := by
  induction m with
  | nil => simp [mapInsert, mapFind, h]
  | cons p rest ih =>
    obtain ⟨k', v'⟩ := p
    by_cases h1 : k = k'
    · subst h1; simp [mapInsert, mapFind, h]
    · by_cases h3 : k0 = k'
      · simp [mapInsert, h1, mapFind, h3]
      · simp [mapInsert, h1, mapFind, h3, ih]

/-- Membership of a key in the embedded map is reflected by `mapFind`. -/
theorem mapFind_isSome_iff {α : Type} (k : OsmId) (m : List (OsmId × α)) :
    (mapFind k m).isSome = true ↔ k ∈ m.map Prod.fst := by
  induction m with
  | nil => simp [mapFind]
  | cons p rest ih =>
    obtain ⟨k', v'⟩ := p
    by_cases h : k = k'
    · simp [mapFind, h]
    · simp [mapFind, h, ih]

theorem mapFind_mem {α : Type} (k : OsmId) (v : α) (m : List (OsmId × α))
    (h : mapFind k m = some v) : (k, v) ∈ m := by
  induction m with
  | nil => simp [mapFind] at h
  | cons p rest ih =>
    obtain ⟨k', v'⟩ := p
    by_cases hk : k = k'
    · subst hk
      simp [mapFind] at h
      simp [h]
    · simp [mapFind, hk] at h
      exact List.mem_cons_of_mem _ (ih h)

theorem mem_mapInsert {α : Type} (k : OsmId) (v : α) (m : List (OsmId × α))
    (p : OsmId × α) (hp : p ∈ mapInsert k v m) : p = (k, v) ∨ p ∈ m := by
  induction m with
  | nil => simp [mapInsert] at hp; simp [hp]
  | cons q rest ih =>
    obtain ⟨k', v'⟩ := q
    by_cases h1 : k = k'
    · simp [mapInsert, h1] at hp
      rcases hp with h | h
      · left; simp [h, h1]
      · right; simp [h]
    · simp [mapInsert, h1] at hp
      rcases hp with h | h
      · right; simp [h]
      · rcases ih h with h' | h'
        · left; exact h'
        · right; simp [h']

/-- Inserting a key absent from the map adds exactly one binding. -/
theorem mapInsert_length_fresh {α : Type} (k : OsmId) (v : α) (m : List (OsmId × α))
    (h : mapFind k m = none) : (mapInsert k v m).length = m.length + 1 := by
  induction m with
  | nil => simp [mapInsert]
  | cons p rest ih =>
    obtain ⟨k', v'⟩ := p
    by_cases h1 : k = k'
    · simp [mapFind, h1] at h
    · simp [mapFind, h1] at h
      simp [mapInsert, h1, ih h]

/-- Inserting a bound key keeps the binding count. -/
theorem mapInsert_length_present {α : Type} (k : OsmId) (v : α)
    (m : List (OsmId × α)) (h : (mapFind k m).isSome = true) :
    (mapInsert k v m).length = m.length := by
  induction m with
  | nil => simp [mapFind] at h
  | cons p rest ih =>
    obtain ⟨k', v'⟩ := p
    by_cases h1 : k = k'
    · simp [mapInsert, h1]
    · simp [mapFind, h1] at h
      simp [mapInsert, h1, ih h]

/-- New keys after an insertion are the inserted key or an old key. -/
theorem mem_map_fst_mapInsert {α : Type} {k k0 : OsmId} {v : α}
    {m : List (OsmId × α)} (h : k0 ∈ (mapInsert k v m).map Prod.fst) :
    k0 = k ∨ k0 ∈ m.map Prod.fst := by
  simp only [List.mem_map] at h
  obtain ⟨p, hp, hfst⟩ := h
  rcases mem_mapInsert k v m p hp with h' | h'
  · left; rw [h'] at hfst; exact hfst.symm ▸ rfl
  · right; exact List.mem_map.mpr ⟨p, h', hfst⟩


/-- Insertion keeps the key list duplicate-free. -/
theorem mapInsert_nodup {α : Type} (k : OsmId) (v : α) (m : List (OsmId × α))
    (h : (m.map Prod.fst).Nodup) : ((mapInsert k v m).map Prod.fst).Nodup := by
  induction m with
  | nil => simp [mapInsert]
  | cons p rest ih =>
    obtain ⟨k', v'⟩ := p
    simp only [List.map_cons, List.nodup_cons] at h
    by_cases h1 : k = k'
    · subst h1
      simpa [mapInsert] using h
    · simp only [mapInsert, if_neg h1, List.map_cons, List.nodup_cons]
      refine ⟨?_, ih h.2⟩
      intro hc
      rcases mem_map_fst_mapInsert hc with hc' | hc'
      · exact h1 hc'.symm
      · exact h.1 hc'

theorem runningSum_length (acc : Int) (ds : List Int) :
    (runningSum acc ds).length = ds.length := by
  induction ds generalizing acc with
  | nil => simp [runningSum]
  | cons d ds ih => simp [runningSum, ih]

/-- The running sum satisfies the delta recurrence at every successor
index. -/
theorem runningSum_succ (acc : Int) (ds : List Int) (i : Nat)
    (h : i + 1 < ds.length) :
    (runningSum acc ds).getD (i + 1) 0 =
      (runningSum acc ds).getD i 0 + ds.getD (i + 1) 0 := by
  induction ds generalizing acc i with
  | nil => simp at h
  | cons d ds ih =>
    cases i with
    | zero =>
      cases ds with
      | nil => simp at h
      | cons d2 ds2 => simp [runningSum]
    | succ j =>
      simp only [runningSum]
      have hj : j + 1 < ds.length := by simpa using h
      simpa using ih (acc + d) j hj

/-- The ids returned by `denseGo` are the running sums of the id deltas,
and likewise for the raw values behind the latitudes and longitudes. -/
theorem denseGo_fields (b : PrimitiveBlock) (triples : List (Int × Int × Int))
    (pid plat plon : Int) (kvs : List Nat) :
    (denseGo b triples pid plat plon kvs).map Node.id =
        runningSum pid (triples.map Prod.fst) ∧
      (denseGo b triples pid plat plon kvs).map Node.lat =
        (runningSum plat (triples.map fun t => t.2.1)).map (makeLat b) ∧
      (denseGo b triples pid plat plon kvs).map Node.lon =
        (runningSum plon (triples.map fun t => t.2.2)).map (makeLon b) := by
  induction triples generalizing pid plat plon kvs with
  | nil => simp [denseGo, runningSum]
  | cons t rest ih =>
    obtain ⟨di, dla, dlo⟩ := t
    simp only [denseGo, runningSum, List.map_cons]
    obtain ⟨h1, h2, h3⟩ := ih (pid + di) (plat + dla) (plon + dlo)
      (takeTags b kvs).2
    refine ⟨?_, ?_, ?_⟩ <;> simp [h1, h2, h3]

/-- Consuming the interleaving of nonzero key indices with value indices
reads back exactly the zipped tag pairs and exhausts the sequence. -/
theorem takeTags_interleave (b : PrimitiveBlock) (keys vals : List Nat)
    (hlen : keys.length = vals.length) (h0 : ∀ k ∈ keys, k ≠ 0) :
    takeTags b (interleave keys vals) =
      ((keys.zip vals).map fun p => (strGet b p.1, strGet b p.2), []) := by
  induction keys generalizing vals with
  | nil =>
    cases vals with
    | nil => simp [interleave, takeTags]
    | cons v vs => simp at hlen
  | cons k ks ih =>
    cases vals with
    | nil => simp at hlen
    | cons v vs =>
      have hk : k ≠ 0 := h0 k (List.mem_cons_self k ks)
      obtain ⟨m, hm⟩ := Nat.exists_eq_succ_of_ne_zero hk
      subst hm
      have hlen' : ks.length = vs.length := by simpa using hlen
      have h0' : ∀ x ∈ ks, x ≠ 0 := fun x hx => h0 x (List.mem_cons_of_mem _ hx)
      cases hrest : interleave ks vs with
      | nil =>
        have : ks = [] := by
          cases ks with
          | nil => rfl
          | cons a as =>
            cases vs with
            | nil => simp at hlen'
            | cons c cs => simp [interleave] at hrest
        subst this
        have : vs = [] := by simpa using hlen'.symm
        subst this
        simp [interleave, takeTags]
      | cons x xs =>
        have := ih vs hlen' h0'
        rw [hrest] at this
        simp only [interleave, List.zip_cons_cons, List.map_cons]
        rw [hrest]
        simp [takeTags, this]

/-- A scan hits the file's first decode error whatever its step function
and starting state. -/
theorem scanBlocks_error {σ : Type} (step : σ → OsmObj → σ) (file : Blocks)
    (st : σ) (e : Error) (h : firstErr file = some e) :
    scanBlocks step file st = .error e := by
  induction file generalizing st with
  | nil => simp [firstErr] at h
  | cons b rest ih =>
    cases b with
    | error e' => simp [firstErr] at h; simp [scanBlocks, h]
    | ok os => simp only [firstErr] at h; simp [scanBlocks, ih _ h]

/-- An error-free scan is the fold of its step over the file's objects in
order. -/
theorem scanBlocks_ok {σ : Type} (step : σ → OsmObj → σ) (file : Blocks)
    (st : σ) (h : firstErr file = none) :
    scanBlocks step file st = .ok ((blocksObjs file).foldl step st) := by
  induction file generalizing st with
  | nil => simp [scanBlocks, blocksObjs]
  | cons b rest ih =>
    cases b with
    | error e' => simp [firstErr] at h
    | ok os =>
      simp only [firstErr] at h
      simp [scanBlocks, blocksObjs, ih _ h, List.foldl_append]

/-- Insertion keeps every already-bound key bound. -/
theorem mapFind_isSome_insert {α : Type} (k k' : OsmId) (v : α)
    (m : List (OsmId × α)) (h : (mapFind k m).isSome = true) :
    (mapFind k (mapInsert k' v m)).isSome = true := by
  by_cases hk : k = k'
  · subst hk; simp [mapFind_insert_self]
  · rwa [mapFind_insert_ne _ _ _ _ hk]

/-- The wanted set only grows under `addDeps`. -/
theorem subset_addDeps (objs : List (OsmId × OsmObj)) (w : List OsmId)
    (ds : List OsmId) : w ⊆ addDeps objs w ds := by
  induction ds generalizing w with
  | nil => simp [addDeps]
  | cons d ds ih =>
    intro x hx
    show x ∈ List.foldl _ (if (mapFind d objs).isSome || decide (d ∈ w) then w
      else w ++ [d]) ds
    by_cases hc : (mapFind d objs).isSome || decide (d ∈ w)
    · rw [if_pos hc]
      exact ih _ hx
    · rw [if_neg hc]
      exact ih _ (List.mem_append_left _ hx)

/-- Every added reference ends up found in the map or in the wanted set. -/
theorem mem_addDeps (objs : List (OsmId × OsmObj)) (w : List OsmId)
    (ds : List OsmId) (d : OsmId) (hd : d ∈ ds) :
    (mapFind d objs).isSome = true ∨ d ∈ addDeps objs w ds := by
  induction ds generalizing w with
  | nil => simp at hd
  | cons d0 ds ih =>
    rcases List.mem_cons.mp hd with h | h
    · subst h
      by_cases hs : (mapFind d objs).isSome = true
      · left; exact hs
      · right
        have hmem : d ∈ (if (mapFind d objs).isSome || decide (d ∈ w) then w
            else w ++ [d]) := by
          by_cases hw : d ∈ w
          · simp [hw]
          · simp [hs, hw]
        exact subset_addDeps objs _ ds hmem
    · exact ih _ h

/-- A bound key stays bound across the first pass. -/
theorem firstPass_mono (pred : OsmObj → Bool) (os : List OsmObj)
    (st : List (OsmId × OsmObj) × List OsmId) (k : OsmId)
    (h : (mapFind k st.1).isSome = true) :
    (mapFind k ((os.foldl (firstPassStep pred) st)).1).isSome = true := by
  induction os generalizing st with
  | nil => simpa using h
  | cons o rest ih =>
    simp only [List.foldl_cons]
    apply ih
    by_cases hp : pred o
    · simpa [firstPassStep, hp] using mapFind_isSome_insert _ _ _ _ h
    · simpa [firstPassStep, hp] using h

/-- A key bound to no object of the pass keeps its original binding. -/
theorem firstPass_preserve (pred : OsmObj → Bool) (os : List OsmObj)
    (st : List (OsmId × OsmObj) × List OsmId) (k : OsmId)
    (h : ∀ o ∈ os, OsmObj.id o ≠ k) :
    mapFind k ((os.foldl (firstPassStep pred) st)).1 = mapFind k st.1 := by
  induction os generalizing st with
  | nil => simp
  | cons o rest ih =>
    simp only [List.foldl_cons]
    rw [ih _ fun o' ho' => h o' (List.mem_cons_of_mem _ ho')]
    by_cases hp : pred o
    · simp only [firstPassStep, hp, if_pos]
      exact mapFind_insert_ne _ _ _ _ fun hk =>
        h o (List.mem_cons_self o rest) (hk ▸ rfl)
    · simp [firstPassStep, hp]

/-- Every binding after the first pass is an original binding or a
predicate-matched object of the pass keyed by its id. -/
theorem firstPass_sound (pred : OsmObj → Bool) (os : List OsmObj)
    (st : List (OsmId × OsmObj) × List OsmId) (k : OsmId) (v : OsmObj)
    (h : mapFind k ((os.foldl (firstPassStep pred) st)).1 = some v) :
    mapFind k st.1 = some v ∨ (v ∈ os ∧ OsmObj.id v = k ∧ pred v = true) := by
  induction os generalizing st with
  | nil => left; simpa using h
  | cons o rest ih =>
    simp only [List.foldl_cons] at h
    rcases ih _ h with h' | h'
    · by_cases hp : pred o
      · simp only [firstPassStep, hp, if_pos] at h'
        by_cases hk : k = o.id
        · subst hk
          rw [mapFind_insert_self] at h'
          right
          exact ⟨by simp [← Option.some_inj.mp h'], by simp [← Option.some_inj.mp h'],
            by rw [← Option.some_inj.mp h']; exact hp⟩
        · rw [mapFind_insert_ne _ _ _ _ hk] at h'
          left; exact h'
      · simp only [firstPassStep, hp] at h'
        left; simpa using h'
    · right
      exact ⟨List.mem_cons_of_mem _ h'.1, h'.2⟩

/-- Every predicate-matched object of the pass is present afterwards. -/
theorem firstPass_found (pred : OsmObj → Bool) (os : List OsmObj)
    (st : List (OsmId × OsmObj) × List OsmId) (o : OsmObj)
    (ho : o ∈ os) (hp : pred o = true) :
    (mapFind (OsmObj.id o) ((os.foldl (firstPassStep pred) st)).1).isSome = true := by
  induction os generalizing st with
  | nil => simp at ho
  | cons o' rest ih =>
    rcases List.mem_cons.mp ho with h | h
    · subst h
      simp only [List.foldl_cons]
      apply firstPass_mono
      simp [firstPassStep, hp, mapFind_insert_self]
    · simp only [List.foldl_cons]
      exact ih _ h

/-- With duplicate-free ids, a matched object is bound exactly to itself. -/
theorem firstPass_exact (pred : OsmObj → Bool) (os : List OsmObj)
    (st : List (OsmId × OsmObj) × List OsmId) (o : OsmObj)
    (ho : o ∈ os) (hp : pred o = true) (hnd : (os.map OsmObj.id).Nodup) :
    mapFind (OsmObj.id o) ((os.foldl (firstPassStep pred) st)).1 = some o := by
  induction os generalizing st with
  | nil => simp at ho
  | cons o' rest ih =>
    simp only [List.map_cons, List.nodup_cons] at hnd
    rcases List.mem_cons.mp ho with h | h
    · subst h
      simp only [List.foldl_cons]
      rw [firstPass_preserve _ _ _ _ (by
        intro o'' ho'' hk
        exact hnd.1 (by rw [← hk]; exact List.mem_map_of_mem OsmObj.id ho''))]
      simp [firstPassStep, hp, mapFind_insert_self]
    · simp only [List.foldl_cons]
      exact ih _ h hnd.2

/-- The first pass keeps the key list duplicate-free. -/
theorem firstPass_nodup (pred : OsmObj → Bool) (os : List OsmObj)
    (st : List (OsmId × OsmObj) × List OsmId)
    (h : (st.1.map Prod.fst).Nodup) :
    (((os.foldl (firstPassStep pred) st)).1.map Prod.fst).Nodup := by
  induction os generalizing st with
  | nil => simpa using h
  | cons o rest ih =>
    simp only [List.foldl_cons]
    apply ih
    by_cases hp : pred o
    · simpa [firstPassStep, hp] using mapInsert_nodup _ _ _ h
    · simpa [firstPassStep, hp] using h

/-- Reference coverage invariant of the first pass (§4.4 step 1): every
direct reference of every bound object is bound or wanted. -/
theorem firstPass_inv (pred : OsmObj → Bool) (os : List OsmObj)
    (st : List (OsmId × OsmObj) × List OsmId)
    (h : ∀ k v, mapFind k st.1 = some v → ∀ d ∈ OsmObj.deps v,
      (mapFind d st.1).isSome = true ∨ d ∈ st.2) :
    ∀ k v, mapFind k ((os.foldl (firstPassStep pred) st)).1 = some v →
      ∀ d ∈ OsmObj.deps v,
        (mapFind d ((os.foldl (firstPassStep pred) st)).1).isSome = true ∨
          d ∈ ((os.foldl (firstPassStep pred) st)).2 := by
  induction os generalizing st with
  | nil => simpa using h
  | cons o rest ih =>
    simp only [List.foldl_cons]
    apply ih
    intro k v hkv d hd
    by_cases hp : pred o
    · simp only [firstPassStep, hp, if_pos] at hkv ⊢
      by_cases hk : k = o.id
      · subst hk
        rw [mapFind_insert_self] at hkv
        obtain rfl := Option.some_inj.mp hkv
        exact mem_addDeps _ _ _ d (by simpa using hd)
      · rw [mapFind_insert_ne _ _ _ _ hk] at hkv
        rcases h k v hkv d hd with h' | h'
        · left; exact mapFind_isSome_insert _ _ _ _ h'
        · right; exact subset_addDeps _ _ _ h'
    · simp only [firstPassStep, hp, if_neg] at hkv ⊢
      exact h k v hkv d hd

/-- A first pass whose predicate matches nothing changes nothing. -/
theorem firstPass_none (pred : OsmObj → Bool) (os : List OsmObj)
    (st : List (OsmId × OsmObj) × List OsmId)
    (h : ∀ o ∈ os, pred o = false) :
    os.foldl (firstPassStep pred) st = st := by
  induction os generalizing st with
  | nil => simp
  | cons o rest ih =>
    simp only [List.foldl_cons]
    rw [show firstPassStep pred st o = st by
      simp [firstPassStep, h o (List.mem_cons_self o rest)]]
    exact ih _ fun o' ho' => h o' (List.mem_cons_of_mem _ ho')

/-- A rescan step either skips the object or inserts it fresh. -/
theorem passStep_cases (st : List (OsmId × OsmObj) × List OsmId × List OsmId)
    (o : OsmObj) :
    passStep st o = st ∨
      (OsmObj.id o ∈ st.2.1 ∧ mapFind (OsmObj.id o) st.1 = none ∧
        passStep st o =
          (mapInsert (OsmObj.id o) o st.1,
           st.2.1.filter (fun x => decide (x ≠ OsmObj.id o)),
           addDeps (mapInsert (OsmObj.id o) o st.1) st.2.2 (OsmObj.deps o))) := by
  by_cases hc : decide (OsmObj.id o ∈ st.2.1) && (mapFind (OsmObj.id o) st.1).isNone
  · right
    simp only [Bool.and_eq_true, decide_eq_true_eq, Option.isNone_iff_eq_none] at hc
    exact ⟨hc.1, hc.2, by simp [passStep, hc.1, hc.2]⟩
  · left
    simp [passStep, hc]

/-- A binding present before a rescan pass survives it unchanged. -/
theorem pass_binding (os : List OsmObj)
    (st : List (OsmId × OsmObj) × List OsmId × List OsmId) (k : OsmId)
    (v : OsmObj) (h : mapFind k st.1 = some v) :
    mapFind k ((os.foldl passStep st)).1 = some v := by
  induction os generalizing st with
  | nil => simpa using h
  | cons o rest ih =>
    simp only [List.foldl_cons]
    apply ih
    rcases passStep_cases st o with hc | ⟨_, hnone, heq⟩
    · rwa [hc]
    · rw [heq]
      have hk : k ≠ OsmObj.id o := fun hk => by
        rw [hk, hnone] at h; exact Option.noConfusion h
      simpa [mapFind_insert_ne _ _ _ _ hk] using h

/-- A bound key stays bound across a rescan pass. -/
theorem pass_mono (os : List OsmObj)
    (st : List (OsmId × OsmObj) × List OsmId × List OsmId) (k : OsmId)
    (h : (mapFind k st.1).isSome = true) :
    (mapFind k ((os.foldl passStep st)).1).isSome = true := by
  obtain ⟨v, hv⟩ := Option.isSome_iff_exists.mp h
  rw [pass_binding os st k v hv]
  rfl

/-- Every binding after a rescan pass is an original binding or an object
of the pass keyed by its id. -/
theorem pass_sound (os : List OsmObj)
    (st : List (OsmId × OsmObj) × List OsmId × List OsmId) (k : OsmId)
    (v : OsmObj) (h : mapFind k ((os.foldl passStep st)).1 = some v) :
    mapFind k st.1 = some v ∨ (v ∈ os ∧ OsmObj.id v = k) := by
  induction os generalizing st with
  | nil => left; simpa using h
  | cons o rest ih =>
    simp only [List.foldl_cons] at h
    rcases ih _ h with h' | h'
    · rcases passStep_cases st o with hc | ⟨_, _, heq⟩
      · rw [hc] at h'; left; exact h'
      · rw [heq] at h'
        by_cases hk : k = OsmObj.id o
        · subst hk
          rw [mapFind_insert_self] at h'
          obtain rfl := Option.some_inj.mp h'
          right
          exact ⟨List.mem_cons_self _ _, rfl⟩
        · rw [mapFind_insert_ne _ _ _ _ hk] at h'
          left; exact h'
    · right
      exact ⟨List.mem_cons_of_mem _ h'.1, h'.2⟩

/-- The current wanted set of a rescan pass only shrinks. -/
theorem pass_curSubset (os : List OsmObj)
    (st : List (OsmId × OsmObj) × List OsmId × List OsmId) :
    ((os.foldl passStep st)).2.1 ⊆ st.2.1 := by
  induction os generalizing st with
  | nil => simp
  | cons o rest ih =>
    simp only [List.foldl_cons]
    intro x hx
    have hx' := ih _ hx
    rcases passStep_cases st o with hc | ⟨_, _, heq⟩
    · rwa [hc] at hx'
    · rw [heq] at hx'
      exact List.mem_of_mem_filter hx'

/-- The next wanted set of a rescan pass only grows. -/
theorem pass_nwSubset (os : List OsmObj)
    (st : List (OsmId × OsmObj) × List OsmId × List OsmId) :
    st.2.2 ⊆ ((os.foldl passStep st)).2.2 := by
  induction os generalizing st with
  | nil => simp
  | cons o rest ih =>
    simp only [List.foldl_cons]
    intro x hx
    apply ih
    rcases passStep_cases st o with hc | ⟨_, _, heq⟩
    · rwa [hc]
    · rw [heq]
      exact subset_addDeps _ _ _ hx

/-- A wanted id stays wanted or becomes bound during a rescan pass. -/
theorem pass_wanted_inv (os : List OsmObj)
    (st : List (OsmId × OsmObj) × List OsmId × List OsmId) (k : OsmId)
    (h : k ∈ st.2.1 ∨ (mapFind k st.1).isSome = true) :
    k ∈ ((os.foldl passStep st)).2.1 ∨
      (mapFind k ((os.foldl passStep st)).1).isSome = true := by
  induction os generalizing st with
  | nil => simpa using h
  | cons o rest ih =>
    simp only [List.foldl_cons]
    apply ih
    rcases passStep_cases st o with hc | ⟨_, _, heq⟩
    · rwa [hc]
    · rw [heq]
      rcases h with h | h
      · by_cases hk : k = OsmObj.id o
        · subst hk
          right; simp [mapFind_insert_self]
        · left
          simp only [List.mem_filter, decide_eq_true_eq]
          exact ⟨h, hk⟩
      · right
        exact mapFind_isSome_insert _ _ _ _ h

/-- An id wanted at the start of a rescan pass whose object occurs in the
pass is bound afterwards. -/
theorem pass_found (os : List OsmObj)
    (st : List (OsmId × OsmObj) × List OsmId × List OsmId) (o : OsmObj)
    (ho : o ∈ os) (hw : OsmObj.id o ∈ st.2.1 ∨ (mapFind (OsmObj.id o) st.1).isSome = true) :
    (mapFind (OsmObj.id o) ((os.foldl passStep st)).1).isSome = true := by
  induction os generalizing st with
  | nil => simp at ho
  | cons o' rest ih =>
    rcases List.mem_cons.mp ho with h | h
    · subst h
      simp only [List.foldl_cons]
      apply pass_mono
      by_cases hs : (mapFind (OsmObj.id o) st.1).isSome = true
      · rcases passStep_cases st o with hc | ⟨_, _, heq⟩
        · rwa [hc]
        · rw [heq]
          exact mapFind_isSome_insert _ _ _ _ hs
      · have hnone : mapFind (OsmObj.id o) st.1 = none := by
          cases hfind : mapFind (OsmObj.id o) st.1 with
          | none => rfl
          | some v => rw [hfind] at hs; simp at hs
        rcases hw with hw | hw
        · simp [passStep, hw, hnone, mapFind_insert_self]
        · exact absurd hw hs
    · simp only [List.foldl_cons]
      apply ih _ h
      rcases passStep_cases st o' with hc | ⟨_, _, heq⟩
      · rwa [hc]
      · rw [heq]
        rcases hw with hw | hw
        · by_cases hk : OsmObj.id o = OsmObj.id o'
          · right; rw [hk]; simp [mapFind_insert_self]
          · left
            simp only [List.mem_filter, decide_eq_true_eq]
            exact ⟨hw, hk⟩
        · right
          exact mapFind_isSome_insert _ _ _ _ hw

/-- A rescan pass keeps the key list duplicate-free. -/
theorem pass_nodup (os : List OsmObj)
    (st : List (OsmId × OsmObj) × List OsmId × List OsmId)
    (h : (st.1.map Prod.fst).Nodup) :
    (((os.foldl passStep st)).1.map Prod.fst).Nodup := by
  induction os generalizing st with
  | nil => simpa using h
  | cons o rest ih =>
    simp only [List.foldl_cons]
    apply ih
    rcases passStep_cases st o with hc | ⟨_, _, heq⟩
    · rwa [hc]
    · rw [heq]
      exact mapInsert_nodup _ _ _ h

/-- The map never shrinks during a rescan pass. -/
theorem pass_len_mono (os : List OsmObj)
    (st : List (OsmId × OsmObj) × List OsmId × List OsmId) :
    st.1.length ≤ ((os.foldl passStep st)).1.length := by
  induction os generalizing st with
  | nil => simp
  | cons o rest ih =>
    simp only [List.foldl_cons]
    rcases passStep_cases st o with hc | ⟨_, hnone, heq⟩
    · rw [hc]; exact ih st
    · calc st.1.length ≤ (passStep st o).1.length := by
            rw [heq]; simp [mapInsert_length_fresh _ _ _ hnone]
        _ ≤ _ := ih _

/-- A rescan pass that grows the map in no binding changes nothing. -/
theorem pass_no_insert (os : List OsmObj)
    (st : List (OsmId × OsmObj) × List OsmId × List OsmId)
    (h : ((os.foldl passStep st)).1.length = st.1.length) :
    os.foldl passStep st = st := by
  induction os generalizing st with
  | nil => simp
  | cons o rest ih =>
    simp only [List.foldl_cons] at h ⊢
    rcases passStep_cases st o with hc | ⟨_, hnone, heq⟩
    · rw [hc] at h ⊢
      exact ih _ h
    · exfalso
      have h1 : (passStep st o).1.length = st.1.length + 1 := by
        rw [heq]; simp [mapInsert_length_fresh _ _ _ hnone]
      have h2 := pass_len_mono rest (passStep st o)
      omega

/-- Closure invariant of a rescan pass: every direct reference of every
bound object is bound, still wanted, newly wanted, or exempt (the exempt
predicate is instantiated with absence from the file). -/
theorem pass_inv (P : OsmId → Prop) (os : List OsmObj)
    (st : List (OsmId × OsmObj) × List OsmId × List OsmId)
    (h : ∀ k v, mapFind k st.1 = some v → ∀ d ∈ OsmObj.deps v,
      (mapFind d st.1).isSome = true ∨ d ∈ st.2.1 ∨ d ∈ st.2.2 ∨ P d) :
    ∀ k v, mapFind k ((os.foldl passStep st)).1 = some v →
      ∀ d ∈ OsmObj.deps v,
        (mapFind d ((os.foldl passStep st)).1).isSome = true ∨
          d ∈ ((os.foldl passStep st)).2.1 ∨ d ∈ ((os.foldl passStep st)).2.2 ∨
          P d := by
  induction os generalizing st with
  | nil => simpa using h
  | cons o rest ih =>
    simp only [List.foldl_cons]
    apply ih
    intro k v hkv d hd
    rcases passStep_cases st o with hc | ⟨hwant, hnone, heq⟩
    · rw [hc] at hkv ⊢
      exact h k v hkv d hd
    · rw [heq] at hkv ⊢
      by_cases hk : k = OsmObj.id o
      · subst hk
        rw [mapFind_insert_self] at hkv
        obtain rfl := Option.some_inj.mp hkv
        rcases mem_addDeps (mapInsert (OsmObj.id o) o st.1) st.2.2
          (OsmObj.deps o) d hd with h' | h'
        · left; exact h'
        · right; right; left; exact h'
      · rw [mapFind_insert_ne _ _ _ _ hk] at hkv
        rcases h k v hkv d hd with h' | h' | h' | h'
        · left; exact mapFind_isSome_insert _ _ _ _ h'
        · by_cases hdk : d = OsmObj.id o
          · subst hdk
            left; simp [mapFind_insert_self]
          · right; left
            simp only [List.mem_filter, decide_eq_true_eq]
            exact ⟨h', hdk⟩
        · right; right; left
          exact subset_addDeps _ _ _ h'
        · right; right; right; exact h'

/-- A duplicate-free list contained in another is no longer than it. -/
theorem nodup_subset_length {α : Type} [DecidableEq α] (l1 l2 : List α)
    (hn : l1.Nodup) (hs : l1 ⊆ l2) : l1.length ≤ l2.length := by
  calc l1.length = l1.toFinset.card := (List.toFinset_card_of_nodup hn).symm
    _ ≤ l2.toFinset.card := Finset.card_le_card fun x hx => by
        simp only [List.mem_toFinset] at hx ⊢
        exact hs hx
    _ ≤ l2.length := l2.toFinset_card_le

/-- The rewind-and-rescan loop with an empty wanted set returns at once. -/
theorem resolveLoop_empty (file : Blocks) (fuel : Nat)
    (m : List (OsmId × OsmObj)) : resolveLoop file fuel m [] = .ok m := by
  cases fuel with
  | zero => rfl
  | succ n => simp [resolveLoop]

/-- A sound map with duplicate-free keys has at most one binding per file
object. -/
theorem sound_length_le (file : Blocks) (m : List (OsmId × OsmObj))
    (hsound : ∀ k v, mapFind k m = some v →
      v ∈ blocksObjs file ∧ OsmObj.id v = k)
    (hnd : (m.map Prod.fst).Nodup) : m.length ≤ objCount file := by
  have hsub : m.map Prod.fst ⊆ (blocksObjs file).map OsmObj.id := by
    intro k hk
    have hs : (mapFind k m).isSome = true := (mapFind_isSome_iff k m).mpr hk
    obtain ⟨v, hv⟩ := Option.isSome_iff_exists.mp hs
    obtain ⟨hvmem, hvid⟩ := hsound k v hv
    exact hvid ▸ List.mem_map_of_mem OsmObj.id hvmem
  calc m.length = (m.map Prod.fst).length := (List.length_map m Prod.fst).symm
    _ ≤ ((blocksObjs file).map OsmObj.id).length :=
        nodup_subset_length _ _ hnd hsub
    _ = objCount file := by simp [objCount]

/-- Behaviour of the rewind-and-rescan loop of §4.4 on an error-free
file: with enough fuel it reaches the fixed point, preserving every
binding, keeping the map sound and duplicate-free, and resolving every
direct reference that occurs anywhere in the file. -/
theorem resolveLoop_spec (file : Blocks) (hok : firstErr file = none) :
    ∀ (fuel : Nat) (m : List (OsmId × OsmObj)) (w : List OsmId),
      (∀ k v, mapFind k m = some v → v ∈ blocksObjs file ∧ OsmObj.id v = k) →
      (m.map Prod.fst).Nodup →
      (∀ k v, mapFind k m = some v → ∀ d ∈ OsmObj.deps v,
        (mapFind d m).isSome = true ∨ d ∈ w ∨
          d ∉ (blocksObjs file).map OsmObj.id) →
      objCount file + 1 ≤ fuel + m.length →
      ∃ m', resolveLoop file fuel m w = .ok m' ∧
        (∀ k v, mapFind k m = some v → mapFind k m' = some v) ∧
        (∀ k v, mapFind k m' = some v → v ∈ blocksObjs file ∧ OsmObj.id v = k) ∧
        (m'.map Prod.fst).Nodup ∧
        (∀ k v, mapFind k m' = some v → ∀ d ∈ OsmObj.deps v,
          (mapFind d m').isSome = true ∨
            d ∉ (blocksObjs file).map OsmObj.id) := by
  intro fuel
  induction fuel with
  | zero =>
    intro m w hsound hnd _ hfuel
    exact absurd hfuel (by
      have := sound_length_le file m hsound hnd
      omega)
  | succ fuel ih =>
    intro m w hsound hnd hinv hfuel
    by_cases hw : w.isEmpty
    · refine ⟨m, by simp [resolveLoop, hw], fun k v hv => hv, hsound, hnd, ?_⟩
      intro k v hv d hd
      rcases hinv k v hv d hd with h' | h' | h'
      · left; exact h'
      · rw [List.isEmpty_iff.mp hw] at h'
        simp at h'
      · right; exact h'
    · have hscan := scanBlocks_ok passStep file (m, w, []) hok
      set st' := (blocksObjs file).foldl passStep (m, w, []) with hst'
      have hloop : resolveLoop file (fuel + 1) m w =
          resolveLoop file fuel st'.1 st'.2.2 := by
        simp only [resolveLoop, hw, Bool.false_eq_true, if_false, hscan]
      -- invariants after the pass
      have hsound' : ∀ k v, mapFind k st'.1 = some v →
          v ∈ blocksObjs file ∧ OsmObj.id v = k := by
        intro k v hv
        rcases pass_sound _ _ _ _ hv with h' | h'
        · exact hsound k v h'
        · exact ⟨h'.1, h'.2⟩
      have hnd' : (st'.1.map Prod.fst).Nodup := pass_nodup _ _ hnd
      have hinv' : ∀ k v, mapFind k st'.1 = some v → ∀ d ∈ OsmObj.deps v,
          (mapFind d st'.1).isSome = true ∨ d ∈ st'.2.2 ∨
            d ∉ (blocksObjs file).map OsmObj.id := by
        intro k v hv d hd
        have hpre : ∀ k0 v0, mapFind k0 (m, w, ([] : List OsmId)).1 = some v0 →
            ∀ d0 ∈ OsmObj.deps v0,
              (mapFind d0 (m, w, ([] : List OsmId)).1).isSome = true ∨
                d0 ∈ (m, w, ([] : List OsmId)).2.1 ∨
                d0 ∈ (m, w, ([] : List OsmId)).2.2 ∨
                d0 ∉ (blocksObjs file).map OsmObj.id := by
          intro k0 v0 hv0 d0 hd0
          rcases hinv k0 v0 hv0 d0 hd0 with h' | h' | h'
          · left; exact h'
          · right; left; exact h'
          · right; right; right; exact h'
        rcases pass_inv (fun d0 => d0 ∉ (blocksObjs file).map OsmObj.id)
          (blocksObjs file) (m, w, []) hpre k v hv d hd with h' | h' | h' | h'
        · left; exact h'
        · -- still wanted: it was wanted at pass start, so if present in the
          -- file it is bound now
          by_cases hdf : d ∈ (blocksObjs file).map OsmObj.id
          · obtain ⟨o, ho, hoid⟩ := List.mem_map.mp hdf
            left
            rw [← hoid]
            exact pass_found _ (m, w, []) o ho
              (Or.inl (by simpa [hoid] using pass_curSubset _ _ h'))
          · right; right; exact hdf
        · right; left; exact h'
        · right; right; exact h'
      by_cases hnw : st'.2.2 = []
      · refine ⟨st'.1, ?_, ?_, hsound', hnd', ?_⟩
        · rw [hloop, hnw, resolveLoop_empty]
        · intro k v hv
          exact pass_binding _ _ _ _ hv
        · intro k v hv d hd
          rcases hinv' k v hv d hd with h' | h' | h'
          · left; exact h'
          · rw [hnw] at h'; simp at h'
          · right; exact h'
      · have hgrow : m.length < st'.1.length := by
          rcases Nat.lt_or_ge m.length st'.1.length with h' | h'
          · exact h'
          · exfalso
            have hml := pass_len_mono (blocksObjs file) (m, w, [])
            rw [← hst'] at hml
            simp only at hml
            have hle : st'.1.length = m.length := by omega
            have := pass_no_insert (blocksObjs file) (m, w, []) hle
            rw [hst'] at hnw
            rw [this] at hnw
            exact hnw rfl
        obtain ⟨m', hm', hmono, hs', hn', hc'⟩ :=
          ih st'.1 st'.2.2 hsound' hnd' hinv' (by omega)
        refine ⟨m', by rw [hloop]; exact hm', ?_, hs', hn', hc'⟩
        intro k v hv
        exact hmono k v (pass_binding _ _ _ _ hv)

/-- Full behaviour of the dependency-closure query of §4.4 on an
error-free file: it succeeds; the result is sound (every binding is a
file object keyed by its id) with duplicate-free keys; every matched
object is bound (exactly to itself when ids are duplicate-free); and
every direct reference of every bound object is bound unless it occurs
nowhere in the file. -/
theorem resolve_spec (file : Blocks) (pred : OsmObj → Bool)
    (hok : firstErr file = none) :
    ∃ m, resolve file pred = .ok m ∧
      (∀ k v, mapFind k m = some v → v ∈ blocksObjs file ∧ OsmObj.id v = k) ∧
      (m.map Prod.fst).Nodup ∧
      (∀ o ∈ blocksObjs file, pred o = true →
        (mapFind (OsmObj.id o) m).isSome = true) ∧
      (((blocksObjs file).map OsmObj.id).Nodup →
        ∀ o ∈ blocksObjs file, pred o = true →
          mapFind (OsmObj.id o) m = some o) ∧
      (∀ k v, mapFind k m = some v → ∀ d ∈ OsmObj.deps v,
        (mapFind d m).isSome = true ∨
          d ∉ (blocksObjs file).map OsmObj.id) := by
  have hscan := scanBlocks_ok (firstPassStep pred) file ([], []) hok
  set st1 := (blocksObjs file).foldl (firstPassStep pred) ([], []) with hst1
  have hres : resolve file pred =
      resolveLoop file (objCount file + 1) st1.1 st1.2 := by
    simp only [resolve, hscan]
  have hsound1 : ∀ k v, mapFind k st1.1 = some v →
      v ∈ blocksObjs file ∧ OsmObj.id v = k := by
    intro k v hv
    rcases firstPass_sound pred _ _ _ _ hv with h' | h'
    · simp [mapFind] at h'
    · exact ⟨h'.1, h'.2.1⟩
  have hnd1 : (st1.1.map Prod.fst).Nodup := by
    apply firstPass_nodup
    simp
  have hinv1 : ∀ k v, mapFind k st1.1 = some v → ∀ d ∈ OsmObj.deps v,
      (mapFind d st1.1).isSome = true ∨ d ∈ st1.2 ∨
        d ∉ (blocksObjs file).map OsmObj.id := by
    intro k v hv d hd
    rcases firstPass_inv pred (blocksObjs file) ([], [])
      (by intro k0 v0 hv0; simp [mapFind] at hv0) k v hv d hd with h' | h'
    · left; exact h'
    · right; left; exact h'
  obtain ⟨m, hm, hmono, hsound, hnd, hclosure⟩ :=
    resolveLoop_spec file hok (objCount file + 1) st1.1 st1.2
      hsound1 hnd1 hinv1 (by omega)
  refine ⟨m, by rw [hres]; exact hm, hsound, hnd, ?_, ?_, hclosure⟩
  · intro o ho hp
    have h1 := firstPass_found pred (blocksObjs file) ([], []) o ho hp
    obtain ⟨v, hv⟩ := Option.isSome_iff_exists.mp h1
    rw [hmono _ _ hv]
    rfl
  · intro hndids o ho hp
    exact hmono _ _ (firstPass_exact pred (blocksObjs file) ([], []) o ho hp hndids)

/-- A decode error anywhere in the file aborts the query with that error
already in its first pass. -/
theorem resolve_error (file : Blocks) (pred : OsmObj → Bool) (e : Error)
    (he : firstErr file = some e) : resolve file pred = .error e := by
  simp only [resolve, scanBlocks_error (firstPassStep pred) file ([], []) e he]

/-- A predicate matching nothing yields the empty map on an error-free
file. -/
theorem resolve_false (file : Blocks) (pred : OsmObj → Bool)
    (hok : firstErr file = none) (hp : ∀ o ∈ blocksObjs file, pred o = false) :
    resolve file pred = .ok [] := by
  have hscan := scanBlocks_ok (firstPassStep pred) file ([], []) hok
  rw [firstPass_none pred (blocksObjs file) ([], []) hp] at hscan
  simp only [resolve, hscan]
  exact resolveLoop_empty file _ []

theorem slotFind_mem {β : Type} (i : Nat) (v : β) (l : List (Nat × β))
    (h : slotFind i l = some v) : (i, v) ∈ l := by
  induction l with
  | nil => simp [slotFind] at h
  | cons p rest ih =>
    by_cases hp : p.1 = i
    · simp only [slotFind, hp, if_pos] at h
      obtain rfl := Option.some_inj.mp h
      have hpq : (i, p.2) = p := by simp [← hp]
      rw [hpq]
      exact List.mem_cons_self p rest
    · simp only [slotFind, hp, if_neg, if_false] at h
      exact List.mem_cons_of_mem _ (ih h)

theorem slotFind_eq_none_iff {β : Type} (i : Nat) (l : List (Nat × β)) :
    slotFind i l = none ↔ i ∉ l.map Prod.fst := by
  induction l with
  | nil => simp [slotFind]
  | cons p rest ih =>
    by_cases hp : p.1 = i
    · simp [slotFind, hp]
    · simp [slotFind, hp, ih, fun h => hp (Eq.symm h)]
      intro h
      exact fun h' => hp h'.symm

theorem slotFind_append {β : Type} (i : Nat) (l1 l2 : List (Nat × β))
    (h : slotFind i l1 = none) :
    slotFind i (l1 ++ l2) = slotFind i l2 := by
  induction l1 with
  | nil => simp
  | cons p rest ih =>
    by_cases hp : p.1 = i
    · simp [slotFind, hp] at h
    · simp only [slotFind, hp, if_neg, if_false] at h
      simpa [slotFind, hp] using ih h

theorem slotFind_append_some {β : Type} (i : Nat) (v : β) (l1 l2 : List (Nat × β))
    (h : slotFind i l1 = some v) :
    slotFind i (l1 ++ l2) = some v := by
  induction l1 with
  | nil => simp [slotFind] at h
  | cons p rest ih =>
    by_cases hp : p.1 = i
    · simpa [slotFind, hp] using h
    · simp only [slotFind, hp, if_neg, if_false] at h
      simpa [slotFind, hp] using ih h

theorem slotErase_length {β : Type} (i : Nat) (v : β) (l : List (Nat × β))
    (h : slotFind i l = some v) : (slotErase i l).length + 1 = l.length := by
  induction l with
  | nil => simp [slotFind] at h
  | cons p rest ih =>
    by_cases hp : p.1 = i
    · simp [slotErase, hp]
    · simp only [slotFind, hp, if_neg, if_false] at h
      simp [slotErase, hp, ih h]

theorem slotErase_subset {β : Type} (i : Nat) (l : List (Nat × β)) :
    slotErase i l ⊆ l := by
  induction l with
  | nil => simp [slotErase]
  | cons p rest ih =>
    by_cases hp : p.1 = i
    · simp only [slotErase, hp, if_pos]
      exact List.subset_cons_self p rest
    · simp only [slotErase, hp, if_neg, if_false]
      exact List.cons_subset_cons p ih

theorem slotErase_keys_subset {β : Type} (i : Nat) (l : List (Nat × β)) :
    (slotErase i l).map Prod.fst ⊆ l.map Prod.fst := by
  intro k hk
  obtain ⟨p, hp, hfst⟩ := List.mem_map.mp hk
  exact List.mem_map.mpr ⟨p, slotErase_subset i l hp, hfst⟩

theorem slotErase_nodup {β : Type} (i : Nat) (l : List (Nat × β))
    (h : (l.map Prod.fst).Nodup) : ((slotErase i l).map Prod.fst).Nodup := by
  induction l with
  | nil => simp [slotErase]
  | cons p rest ih =>
    simp only [List.map_cons, List.nodup_cons] at h
    by_cases hp : p.1 = i
    · simp only [slotErase, hp, if_pos]
      exact h.2
    · simp only [slotErase, hp, if_neg, if_false, List.map_cons, List.nodup_cons]
      exact ⟨fun hc => h.1 (slotErase_keys_subset i rest hc), ih h.2⟩

theorem slotFind_slotErase_ne {β : Type} (i j : Nat) (l : List (Nat × β))
    (h : j ≠ i) : slotFind j (slotErase i l) = slotFind j l := by
  induction l with
  | nil => simp [slotErase]
  | cons p rest ih =>
    by_cases hp : p.1 = i
    · simp only [slotErase, hp, if_pos]
      have : p.1 ≠ j := by rw [hp]; exact fun hc => h hc.symm
      simp [slotFind, this]
    · by_cases hj : p.1 = j
      · simp [slotErase, hp, slotFind, hj, h]
      · simp [slotErase, hp, slotFind, hj, ih]

theorem slotErase_not_key {β : Type} (i : Nat) (l : List (Nat × β))
    (hnd : (l.map Prod.fst).Nodup) (p : Nat × β) (hp : p ∈ slotErase i l) :
    p ∈ l ∧ (slotFind i l = none ∨ p.1 ≠ i) := by
  induction l with
  | nil => simp [slotErase] at hp
  | cons q rest ih =>
    simp only [List.map_cons, List.nodup_cons] at hnd
    by_cases hq : q.1 = i
    · simp only [slotErase, hq, if_pos] at hp
      refine ⟨List.mem_cons_of_mem _ hp, Or.inr ?_⟩
      intro hc
      exact hnd.1 (by
        rw [hq, ← hc]
        exact List.mem_map_of_mem Prod.fst hp)
    · simp only [slotErase, hq, if_neg, if_false] at hp
      rcases List.mem_cons.mp hp with hp' | hp'
      · subst hp'
        refine ⟨List.mem_cons_self _ _, Or.inr fun hc => hq hc⟩
      · obtain ⟨hmem, hkey⟩ := ih hnd.2 hp'
        refine ⟨List.mem_cons_of_mem _ hmem, ?_⟩
        rcases hkey with hk | hk
        · by_cases hfind : slotFind i (q :: rest) = none
          · left; exact hfind
          · right
            intro hc
            rw [slotFind_eq_none_iff] at hk
            exact hk (by rw [← hc]; exact List.mem_map_of_mem Prod.fst hmem)
        · right; exact hk

/-- Splitting a take at a valid index. -/
theorem take_succ_getD {β : Type} (l : List β) (n : Nat) (d : β)
    (h : n < l.length) : l.take (n + 1) = l.take n ++ [l.getD n d] := by
  induction l generalizing n with
  | nil => simp at h
  | cons x xs ih =>
    cases n with
    | zero => simp [List.getD]
    | succ m =>
      simp only [List.take_succ_cons, List.getD_cons_succ]
      rw [ih m (by simpa using h)]
      simp

/-- Draining preserves the scheduler invariant, moves buffered results to
the output only, and stops exactly when the next-in-order slot is empty. -/
theorem drain_spec {β : Type} (work : List β) (d : β) :
    ∀ (f : Nat) (st : PipeState β), PipeInv work d st → st.done.length ≤ f →
      PipeInv work d (drain f st) ∧
      (drain f st).dispatched = st.dispatched ∧
      (drain f st).inflight = st.inflight ∧
      (drain f st).emitted + (drain f st).done.length =
        st.emitted + st.done.length ∧
      slotFind (drain f st).emitted (drain f st).done = none := by
  intro f
  induction f with
  | zero =>
    intro st hinv hlen
    have hdone : st.done = [] := List.eq_nil_of_length_eq_zero (by omega)
    refine And.intro hinv (And.intro rfl (And.intro rfl (And.intro rfl ?_)))
    show slotFind st.emitted st.done = none
    rw [hdone]
    rfl
  | succ f ih =>
    intro st hinv hlen
    cases hfind : slotFind st.emitted st.done with
    | none =>
      have hdrain : drain (f + 1) st = st := by simp [drain, hfind]
      rw [hdrain]
      exact And.intro hinv (And.intro rfl (And.intro rfl (And.intro rfl hfind)))
    | some v =>
      have hmem := slotFind_mem _ _ _ hfind
      obtain ⟨hge0, hlt0, hval0⟩ := hinv.done_ok _ hmem
      have hlt : st.emitted < st.dispatched := hlt0
      have hval : v = work.getD st.emitted d := hval0
      have herase := slotErase_length _ _ _ hfind
      have hinv2 : PipeInv work d
          { dispatched := st.dispatched, inflight := st.inflight,
            done := slotErase st.emitted st.done,
            emitted := st.emitted + 1, out := st.out ++ [v] } := by
      { refine ⟨?_, ?_, ?_, ?_, ?_, ?_, ?_, ?_⟩ <;> dsimp only
        · exact hinv.dispatched_le
        · have := hinv.counts
          omega
        · rw [hinv.out_eq, hval]
          exact (take_succ_getD work st.emitted d
            (by have := hinv.dispatched_le; omega)).symm
        · intro i h1 h2
          rcases hinv.coverage i (by omega) h2 with h' | h'
          · left; exact h'
          · right
            rwa [slotFind_slotErase_ne _ _ _ (by omega)]
        · intro i hi
          obtain ⟨h1, h2, h3⟩ := hinv.inflight_ok i hi
          have hne : i ≠ st.emitted := by
            intro hc
            rw [hc, hfind] at h3
            exact Option.noConfusion h3
          refine ⟨by omega, h2, ?_⟩
          rwa [slotFind_slotErase_ne _ _ _ hne]
        · intro p hp
          obtain ⟨hpmem, hpkey⟩ := slotErase_not_key _ _ hinv.done_nodup p hp
          obtain ⟨h1, h2, h3⟩ := hinv.done_ok p hpmem
          have hne : p.1 ≠ st.emitted := by
            rcases hpkey with hk | hk
            · rw [hk] at hfind; exact Option.noConfusion hfind
            · exact hk
          exact ⟨by omega, h2, h3⟩
        · exact slotErase_nodup _ _ hinv.done_nodup
        · exact hinv.inflight_nodup }
      have hlen2 : (slotErase st.emitted st.done).length ≤ f := by omega
      obtain ⟨hi1, hi2, hi3, hi4, hi5⟩ := ih _ hinv2 hlen2
      refine ⟨?_, ?_, ?_, ?_, ?_⟩
      · simp only [drain, hfind]
        exact hi1
      · simp only [drain, hfind]
        rw [hi2]
      · simp only [drain, hfind]
        rw [hi3]
      · simp only [drain, hfind]
        rw [hi4]
        dsimp only
        omega
      · simp only [drain, hfind]
        exact hi5

/-- One scheduler step on an unfinished pipeline preserves the invariant
and the drained-buffer property and makes one unit of progress. -/
theorem pipeStep_spec {β : Type} (work : List β) (d : β) (K c : Nat)
    (st : PipeState β) (hK : 1 ≤ K) (hinv : PipeInv work d st)
    (hpost : slotFind st.emitted st.done = none)
    (hrun : ¬(st.inflight = [] ∧ st.dispatched = work.length)) :
    PipeInv work d (pipeStep work d K c st) ∧
    slotFind (pipeStep work d K c st).emitted
      (pipeStep work d K c st).done = none ∧
    (pipeStep work d K c st).dispatched + (pipeStep work d K c st).emitted +
        (pipeStep work d K c st).done.length =
      st.dispatched + st.emitted + st.done.length + 1 := by
  by_cases hdisp : st.inflight.length < K ∧ st.dispatched < work.length
  · have hstep : pipeStep work d K c st =
        { dispatched := st.dispatched + 1,
          inflight := st.inflight ++ [st.dispatched],
          done := st.done, emitted := st.emitted, out := st.out } := by
      simp [pipeStep, hdisp]
    rw [hstep]
    have hcnt := hinv.counts
    refine ⟨?_, hpost, by dsimp only; omega⟩
    refine ⟨?_, ?_, ?_, ?_, ?_, ?_, ?_, ?_⟩ <;> dsimp only
    · omega
    · simp only [List.length_append, List.length_singleton]
      omega
    · exact hinv.out_eq
    · intro i h1 h2
      by_cases hi : i < st.dispatched
      · rcases hinv.coverage i h1 hi with h' | h'
        · left; exact List.mem_append_left _ h'
        · right; exact h'
      · left
        have : i = st.dispatched := by omega
        subst this
        exact List.mem_append_right _ (List.mem_singleton_self _)
    · intro i hi
      rcases List.mem_append.mp hi with h' | h'
      · obtain ⟨h1, h2, h3⟩ := hinv.inflight_ok i h'
        exact ⟨h1, by omega, h3⟩
      · obtain rfl := List.mem_singleton.mp h'
        refine ⟨by omega, by omega, ?_⟩
        rw [slotFind_eq_none_iff]
        intro hc
        obtain ⟨p, hp, hfst⟩ := List.mem_map.mp hc
        obtain ⟨_, hlt, _⟩ := hinv.done_ok p hp
        omega
    · intro p hp
      obtain ⟨h1, h2, h3⟩ := hinv.done_ok p hp
      exact ⟨h1, by omega, h3⟩
    · exact hinv.done_nodup
    · refine List.Nodup.append hinv.inflight_nodup (List.nodup_singleton _) ?_
      rw [List.disjoint_singleton]
      intro hc
      obtain ⟨_, hlt, _⟩ := hinv.inflight_ok _ hc
      omega
  · have hne : ¬st.inflight.isEmpty = true := by
      intro hc
      have hnil := List.isEmpty_iff.mp hc
      apply hrun
      refine ⟨hnil, ?_⟩
      have hnd : ¬st.dispatched < work.length := by
        intro hlt
        exact hdisp ⟨by rw [hnil]; simpa using hK, hlt⟩
      have := hinv.dispatched_le
      omega
    have hlen0 : 0 < st.inflight.length := by
      cases hl : st.inflight with
      | nil => rw [hl] at hne; simp at hne
      | cons a as => simp [hl]
    set j := st.inflight.getD (c % st.inflight.length) 0 with hj
    have hjmem : j ∈ st.inflight := by
      rw [hj, List.getD_eq_getElem st.inflight 0 (Nat.mod_lt c hlen0)]
      exact List.getElem_mem _
    obtain ⟨hje, hjd, hjfind⟩ := hinv.inflight_ok j hjmem
    set stMid : PipeState β :=
      { dispatched := st.dispatched, inflight := st.inflight.erase j,
        done := st.done ++ [(j, work.getD j d)],
        emitted := st.emitted, out := st.out } with hstMid
    have hstep : pipeStep work d K c st = drain (st.done.length + 1) stMid := by
      rw [pipeStep, if_neg hdisp, if_neg hne]
    have herase_len : (st.inflight.erase j).length + 1 = st.inflight.length := by
      rw [List.length_erase_of_mem hjmem]
      omega
    have hjnotdone : j ∉ st.done.map Prod.fst :=
      (slotFind_eq_none_iff j st.done).mp hjfind
    have hinvmid : PipeInv work d stMid := by
    { have hcnt := hinv.counts
      rw [hstMid]
      refine ⟨?_, ?_, ?_, ?_, ?_, ?_, ?_, ?_⟩ <;> dsimp only
      · exact hinv.dispatched_le
      · simp only [List.length_append, List.length_singleton]
        omega
      · exact hinv.out_eq
      · intro i h1 h2
        rcases hinv.coverage i h1 h2 with h' | h'
        · by_cases hij : i = j
          · subst hij
            right
            rw [slotFind_append _ _ _ hjfind]
            simp [slotFind]
          · left
            exact (List.Nodup.mem_erase_iff hinv.inflight_nodup).mpr ⟨hij, h'⟩
        · right
          obtain ⟨v, hv⟩ := Option.isSome_iff_exists.mp h'
          rw [slotFind_append_some _ _ _ _ hv]
          rfl
      · intro i hi
        have hi' := (List.Nodup.mem_erase_iff hinv.inflight_nodup).mp hi
        obtain ⟨h1, h2, h3⟩ := hinv.inflight_ok i hi'.2
        refine ⟨h1, h2, ?_⟩
        rw [slotFind_append _ _ _ h3]
        have hji : ¬j = i := fun h => hi'.1 h.symm
        simp [slotFind, hji]
      · intro p hp
        rcases List.mem_append.mp hp with h' | h'
        · exact hinv.done_ok p h'
        · obtain rfl := List.mem_singleton.mp h'
          exact ⟨hje, hjd, rfl⟩
      · rw [List.map_append]
        refine List.Nodup.append hinv.done_nodup (List.nodup_singleton _) ?_
        simp only [List.map_cons, List.map_nil, List.disjoint_singleton]
        exact hjnotdone
      · exact List.Nodup.erase j hinv.inflight_nodup }
    have hdlen : stMid.done.length ≤ st.done.length + 1 := by
      rw [hstMid]
      simp
    obtain ⟨hd1, hd2, hd3, hd4, hd5⟩ :=
      drain_spec work d (st.done.length + 1) stMid hinvmid hdlen
    rw [hstep]
    refine ⟨hd1, hd5, ?_⟩
    rw [hd2, hstMid]
    rw [hstMid] at hd4
    dsimp only at hd4 ⊢
    simp only [List.length_append, List.length_singleton] at hd4
    have hcnt := hinv.counts
    omega

/-- A finished pipeline (nothing in flight, nothing left to dispatch) is
a fixed point of the scheduler. -/
theorem pipeStep_halted {β : Type} (work : List β) (d : β) (K c : Nat)
    (st : PipeState β) (h1 : st.inflight = []) (h2 : st.dispatched = work.length) :
    pipeStep work d K c st = st := by
  rw [pipeStep, if_neg (by omega), if_pos (by rw [h1]; rfl)]

/-- A finished pipeline satisfying the invariant has emitted exactly the
whole work list. -/
theorem halted_out {β : Type} (work : List β) (d : β) (st : PipeState β)
    (hinv : PipeInv work d st) (hpost : slotFind st.emitted st.done = none)
    (h1 : st.inflight = []) (h2 : st.dispatched = work.length) :
    st.out = work := by
  have hcnt := hinv.counts
  rw [h1] at hcnt
  simp only [List.length_nil] at hcnt
  have hdone0 : st.done.length = 0 := by
    by_contra hd
    have hlt : st.emitted < st.dispatched := by omega
    rcases hinv.coverage st.emitted (Nat.le_refl _) hlt with h' | h'
    · rw [h1] at h'
      simp at h'
    · rw [hpost] at h'
      simp at h'
  have hem : st.emitted = work.length := by omega
  rw [hinv.out_eq, hem, List.take_length]

/-- Enough scheduler steps from an invariant state emit the whole work
list in order. -/
theorem pipeRun_spec {β : Type} (work : List β) (d : β) (K : Nat)
    (oracle : Nat → Nat) (hK : 1 ≤ K) :
    ∀ (fuel : Nat) (st : PipeState β), PipeInv work d st →
      slotFind st.emitted st.done = none →
      2 * work.length ≤ fuel + (st.dispatched + st.emitted + st.done.length) →
      (pipeRun work d K oracle fuel st).out = work := by
  intro fuel
  induction fuel with
  | zero =>
    intro st hinv hpost hbudget
    have hcnt := hinv.counts
    have hle := hinv.dispatched_le
    have h2 : st.dispatched = work.length := by omega
    have h1 : st.inflight = [] := List.eq_nil_of_length_eq_zero (by omega)
    exact halted_out work d st hinv hpost h1 h2
  | succ fuel ih =>
    intro st hinv hpost hbudget
    by_cases hhalt : st.inflight = [] ∧ st.dispatched = work.length
    · have hfix := pipeStep_halted work d K (oracle fuel) st hhalt.1 hhalt.2
      have hout := halted_out work d st hinv hpost hhalt.1 hhalt.2
      show (pipeRun work d K oracle fuel (pipeStep work d K (oracle fuel) st)).out = work
      rw [hfix]
      apply ih st hinv hpost
      have hcnt := hinv.counts
      rw [hhalt.1] at hcnt
      simp only [List.length_nil] at hcnt
      omega
    · obtain ⟨hi1, hi2, hi3⟩ :=
        pipeStep_spec work d K (oracle fuel) st hK hinv hpost hhalt
      show (pipeRun work d K oracle fuel (pipeStep work d K (oracle fuel) st)).out = work
      apply ih _ hi1 hi2
      omega

/-- The pipeline of §4.3 delivers exactly the input-order results for any
worker count and any completion order. -/
theorem runPipeline_eq {β : Type} (work : List β) (d : β) (K : Nat)
    (oracle : Nat → Nat) (hK : 1 ≤ K) :
    runPipeline work d K oracle = work := by
  apply pipeRun_spec work d K oracle hK (2 * work.length) ⟨0, [], [], 0, []⟩
  · refine ⟨by simp, by simp, by simp, ?_, ?_, ?_, by simp, by simp⟩
    · intro i h1 h2
      dsimp only at h1 h2
      omega
    · intro i hi
      simp at hi
    · intro p hp
      simp at hp
  · rfl
  · simp

-- ## Claim theorems

/-- C5: Bulk-point delta decoding: for every bulk-point group the decoded
ids (and the raw values behind the latitudes and longitudes) are the
running sums of the stored deltas, the running sum satisfies
value[0] = delta[0] and value[i] = value[i-1] + delta[i], and the id
delta sequence [100, -30, 10] decodes to ids [100, 70, 80]. -/
theorem bulk_point_delta_decoding :
    (∀ (b : PrimitiveBlock) (g : DenseNodes) (ns : List Node),
       dense_nodes b g = .ok ns →
         ns.map Node.id = runningSum 0 g.ids ∧
         ns.map Node.lat = (runningSum 0 g.lats).map (makeLat b) ∧
         ns.map Node.lon = (runningSum 0 g.lons).map (makeLon b)) ∧
    (∀ ds : List Int, (runningSum 0 ds).length = ds.length) ∧
    (∀ ds : List Int, 0 < ds.length →
       (runningSum 0 ds).getD 0 0 = ds.getD 0 0) ∧
    (∀ (ds : List Int) (i : Nat), i + 1 < ds.length →
       (runningSum 0 ds).getD (i + 1) 0 =
         (runningSum 0 ds).getD i 0 + ds.getD (i + 1) 0) ∧
    (∃ ns, dense_nodes ⟨[], none, none, none⟩
        ⟨[100, -30, 10], [0, 0, 0], [0, 0, 0], []⟩ = .ok ns ∧
      ns.map Node.id = [100, 70, 80]) := by
  refine ⟨?_, ?_, ?_, ?_, ?_⟩
  · intro b g ns hns
    rw [dense_nodes] at hns
    by_cases hlen : g.ids.length = g.lats.length ∧ g.ids.length = g.lons.length
    · rw [if_pos hlen] at hns
      obtain rfl := (Except.ok.injEq _ _).mp hns
      obtain ⟨h1, h2, h3⟩ := denseGo_fields b (g.ids.zip (g.lats.zip g.lons))
        0 0 0 g.keys_vals
      have hzl : (g.lats.zip g.lons).length = g.lats.length := by
        rw [List.length_zip]
        omega
      have hfst : (g.ids.zip (g.lats.zip g.lons)).map Prod.fst = g.ids :=
        List.map_fst_zip _ _ (by omega)
      have hsnd : (g.ids.zip (g.lats.zip g.lons)).map Prod.snd =
          g.lats.zip g.lons :=
        List.map_snd_zip _ _ (by omega)
      refine ⟨by rw [h1, hfst], ?_, ?_⟩
      · rw [h2]
        have : (g.ids.zip (g.lats.zip g.lons)).map (fun t => t.2.1) = g.lats := by
          have hm : (g.ids.zip (g.lats.zip g.lons)).map (fun t => t.2.1) =
              ((g.ids.zip (g.lats.zip g.lons)).map Prod.snd).map Prod.fst := by
            rw [List.map_map]
            rfl
          rw [hm, hsnd]
          exact List.map_fst_zip _ _ (by omega)
        rw [this]
      · rw [h3]
        have : (g.ids.zip (g.lats.zip g.lons)).map (fun t => t.2.2) = g.lons := by
          have hm : (g.ids.zip (g.lats.zip g.lons)).map (fun t => t.2.2) =
              ((g.ids.zip (g.lats.zip g.lons)).map Prod.snd).map Prod.snd := by
            rw [List.map_map]
            rfl
          rw [hm, hsnd]
          exact List.map_snd_zip _ _ (by omega)
        rw [this]
    · rw [if_neg hlen] at hns
      exact Except.noConfusion hns
  · exact fun ds => runningSum_length 0 ds
  · intro ds h0
    cases ds with
    | nil => simp at h0
    | cons x xs => simp [runningSum]
  · exact fun ds i h => runningSum_succ 0 ds i h
  · exact ⟨_, rfl, by decide⟩

/-- C5 witness: the first part of the theorem applied to the concrete
three-delta group with ids [100, -30, 10]. -/
theorem bulk_point_delta_decoding_witness :
    dense_nodes ⟨[], none, none, none⟩
        ⟨[100, -30, 10], [0, 0, 0], [0, 0, 0], []⟩ =
      .ok [⟨100, makeLat ⟨[], none, none, none⟩ 0, makeLon ⟨[], none, none, none⟩ 0, []⟩,
           ⟨70, makeLat ⟨[], none, none, none⟩ 0, makeLon ⟨[], none, none, none⟩ 0, []⟩,
           ⟨80, makeLat ⟨[], none, none, none⟩ 0, makeLon ⟨[], none, none, none⟩ 0, []⟩] ∧
    ([⟨100, makeLat ⟨[], none, none, none⟩ 0, makeLon ⟨[], none, none, none⟩ 0, []⟩,
      ⟨70, makeLat ⟨[], none, none, none⟩ 0, makeLon ⟨[], none, none, none⟩ 0, []⟩,
      ⟨80, makeLat ⟨[], none, none, none⟩ 0, makeLon ⟨[], none, none, none⟩ 0, []⟩] :
        List Node).map Node.id = runningSum 0 [100, -30, 10] :=
  ⟨by rfl, (bulk_point_delta_decoding.1 ⟨[], none, none, none⟩
    ⟨[100, -30, 10], [0, 0, 0], [0, 0, 0], []⟩
    [⟨100, makeLat ⟨[], none, none, none⟩ 0, makeLon ⟨[], none, none, none⟩ 0, []⟩,
     ⟨70, makeLat ⟨[], none, none, none⟩ 0, makeLon ⟨[], none, none, none⟩ 0, []⟩,
     ⟨80, makeLat ⟨[], none, none, none⟩ 0, makeLon ⟨[], none, none, none⟩ 0, []⟩]
    (by rfl)).1⟩

/-- C6: Encoding equivalence of the two point forms: one point with the
same id, raw coordinates and tag indices decodes to the same Node through
the individual-point group and through the bulk-point group. -/
theorem point_encoding_equivalence (b : PrimitiveBlock) (id la lo : Int)
    (keys vals : List Nat) (hlen : keys.length = vals.length)
    (h0 : ∀ k ∈ keys, k ≠ 0) :
    ∃ n, simple_nodes b [⟨id, la, lo, keys, vals⟩] = .ok [n] ∧
      dense_nodes b ⟨[id], [la], [lo], interleave keys vals⟩ = .ok [n] := by
  refine ⟨simple_node b ⟨id, la, lo, keys, vals⟩, ?_, ?_⟩
  · rw [simple_nodes, if_pos (by simp [hlen])]
    rfl
  · rw [dense_nodes, if_pos (by simp)]
    simp only
    rw [show ([id].zip ([la].zip [lo])) = [(id, la, lo)] by rfl]
    rw [denseGo]
    rw [takeTags_interleave b keys vals hlen h0]
    simp only [denseGo]
    rw [simple_node]
    simp [Node.mk.injEq]

/-- C6 witness: the equivalence applied to a concrete tagged point. -/
theorem point_encoding_equivalence_witness :
    ([1, 3] : List Nat).length = ([2, 4] : List Nat).length ∧
    (∀ k ∈ ([1, 3] : List Nat), k ≠ 0) ∧
    (∃ n, simple_nodes ⟨["", "k1", "v1", "k2", "v2"], none, none, none⟩
        [⟨7, 5, 6, [1, 3], [2, 4]⟩] = .ok [n] ∧
      dense_nodes ⟨["", "k1", "v1", "k2", "v2"], none, none, none⟩
        ⟨[7], [5], [6], interleave [1, 3] [2, 4]⟩ = .ok [n]) :=
  ⟨rfl, by decide,
    point_encoding_equivalence ⟨["", "k1", "v1", "k2", "v2"], none, none, none⟩
      7 5 6 [1, 3] [2, 4] rfl (by decide)⟩

/-- C7: Coordinate scaling: the decoded coordinate equals
block_offset + (raw_delta_sum * block_granularity) / 1_000_000_000, with
the format's fixed defaults (granularity 100, offset 0) when the block
fields are absent; granularity 100, offset 0 and raw value 123456 give
the coordinate 0.0123456. -/
theorem coordinate_scaling :
    (∀ g o raw : Int, makeCoord (some g) (some o) raw =
       (o : ℚ) + ((raw : ℚ) * (g : ℚ)) / 1000000000) ∧
    (∀ raw : Int, makeCoord none none raw = makeCoord (some 100) (some 0) raw) ∧
    (∀ (b : PrimitiveBlock) (n : RawNode),
       (simple_node b n).lat = makeCoord b.granularity b.lat_offset n.lat ∧
       (simple_node b n).lon = makeCoord b.granularity b.lon_offset n.lon) ∧
    (∃ ns, dense_nodes ⟨[], some 100, none, none⟩
        ⟨[1], [123456], [123456], []⟩ = .ok ns ∧
      ns.map Node.lat = [(0.0123456 : ℚ)] ∧
      ns.map Node.lon = [(0.0123456 : ℚ)]) := by
  refine ⟨fun g o raw => rfl, fun raw => rfl, fun b n => ⟨rfl, rfl⟩, ?_⟩
  refine ⟨_, rfl, ?_, ?_⟩ <;>
    · simp only [denseGo, takeTags, List.map_cons, List.map_nil]
      norm_num [makeLat, makeLon, makeCoord]

/-- C1: Closure totality of the dependency-closure query: a predicate
holding of every object returns a map containing every decoded object
exactly once, keyed uniquely by its id; a predicate holding of no object
returns the empty map. -/
theorem closure_totality (r : OsmPbfReader)
    (hok : firstErr (OsmPbfReader.blocks r) = none)
    (hnd : ((blocksObjs (OsmPbfReader.blocks r)).map OsmObj.id).Nodup) :
    (∀ pred : OsmObj → Bool,
       (∀ o ∈ blocksObjs (OsmPbfReader.blocks r), pred o = true) →
       ∃ m, get_objs_and_deps r pred = .ok m ∧
         (∀ o ∈ blocksObjs (OsmPbfReader.blocks r),
            mapFind (OsmObj.id o) m = some o) ∧
         (∀ k v, mapFind k m = some v →
            v ∈ blocksObjs (OsmPbfReader.blocks r) ∧ OsmObj.id v = k) ∧
         (m.map Prod.fst).Nodup) ∧
    (∀ pred : OsmObj → Bool,
       (∀ o ∈ blocksObjs (OsmPbfReader.blocks r), pred o = false) →
       get_objs_and_deps r pred = .ok []) := by
  constructor
  · intro pred hp
    obtain ⟨m, hm, hsound, hndk, _, hexact, _⟩ :=
      resolve_spec (OsmPbfReader.blocks r) pred hok
    exact ⟨m, hm, fun o ho => hexact hnd o ho (hp o ho), hsound, hndk⟩
  · intro pred hp
    exact resolve_false _ pred hok hp

/-- C1 witness: the totality theorem applied to a concrete two-object
file, projected onto the nothing-matches half. -/
theorem closure_totality_witness :
    firstErr (OsmPbfReader.blocks ⟨[0, 0, 0, 0], fun _ => .ok 0,
      fun _ _ => .ok [.way ⟨1, [2], []⟩, .node ⟨2, 0, 0, []⟩]⟩) = none ∧
    ((blocksObjs (OsmPbfReader.blocks ⟨[0, 0, 0, 0], fun _ => .ok 0,
      fun _ _ => .ok [.way ⟨1, [2], []⟩, .node ⟨2, 0, 0, []⟩]⟩)).map
        OsmObj.id).Nodup ∧
    get_objs_and_deps ⟨[0, 0, 0, 0], fun _ => .ok 0,
      fun _ _ => .ok [.way ⟨1, [2], []⟩, .node ⟨2, 0, 0, []⟩]⟩
      (fun _ => false) = .ok [] :=
  ⟨rfl, by decide,
    (closure_totality ⟨[0, 0, 0, 0], fun _ => .ok 0,
        fun _ _ => .ok [.way ⟨1, [2], []⟩, .node ⟨2, 0, 0, []⟩]⟩ rfl
      (by decide)).2 (fun _ => false) (fun o _ => rfl)⟩

/-- C2: Forward-reference closure: a node referenced by a matched way is
in the dependency-closure result whenever its object occurs anywhere in
the file, in particular in a block after the way's block. -/
theorem forward_reference_closure (r : OsmPbfReader) (pred : OsmObj → Bool)
    (hok : firstErr (OsmPbfReader.blocks r) = none)
    (hnd : ((blocksObjs (OsmPbfReader.blocks r)).map OsmObj.id).Nodup)
    (w : Way) (hw : OsmObj.way w ∈ blocksObjs (OsmPbfReader.blocks r))
    (hp : pred (OsmObj.way w) = true) (nid : Int) (hnid : nid ∈ w.nodes)
    (n : Node) (hn : OsmObj.node n ∈ blocksObjs (OsmPbfReader.blocks r))
    (hnId : n.id = nid) :
    ∃ m, get_objs_and_deps r pred = .ok m ∧
      mapFind (OsmId.node nid) m = some (OsmObj.node n) := by
  obtain ⟨m, hm, hsound, hndk, _, hexact, hclosure⟩ :=
    resolve_spec (OsmPbfReader.blocks r) pred hok
  have hwbind : mapFind (OsmObj.id (OsmObj.way w)) m = some (OsmObj.way w) :=
    hexact hnd _ hw hp
  have hdep : OsmId.node nid ∈ OsmObj.deps (OsmObj.way w) := by
    simp only [OsmObj.deps]
    exact List.mem_map_of_mem OsmId.node hnid
  have hnidm : OsmObj.id (OsmObj.node n) = OsmId.node nid := by
    simp [OsmObj.id, hnId]
  rcases hclosure _ _ hwbind _ hdep with h' | h'
  · obtain ⟨v, hv⟩ := Option.isSome_iff_exists.mp h'
    obtain ⟨hvm, hvid⟩ := hsound _ _ hv
    have hveq : v = OsmObj.node n := by
      apply List.inj_on_of_nodup_map hnd hvm hn
      rw [hvid, hnidm]
    rw [← hveq]
    exact ⟨m, hm, hv⟩
  · exfalso
    apply h'
    rw [← hnidm]
    exact List.mem_map_of_mem OsmObj.id hn

/-- C2 witness: a way in the first block referencing a node that only
appears in the second, physically later, block: the node is in the
result. -/
theorem forward_reference_closure_witness :
    mapFind (OsmId.node 2)
        [(OsmId.way 1, OsmObj.way ⟨1, [2], []⟩),
         (OsmId.node 2, OsmObj.node ⟨2, 0, 0, []⟩)] =
      some (OsmObj.node ⟨2, 0, 0, []⟩) ∧
    get_objs_and_deps ⟨[0, 0, 0, 1, 10, 0, 0, 0, 1, 20], fun _ => .ok 0,
        fun h _ => if h = [10] then .ok [OsmObj.way ⟨1, [2], []⟩]
          else .ok [OsmObj.node ⟨2, 0, 0, []⟩]⟩
        (fun o => match o with | .way _ => true | _ => false) =
      .ok [(OsmId.way 1, OsmObj.way ⟨1, [2], []⟩),
           (OsmId.node 2, OsmObj.node ⟨2, 0, 0, []⟩)] := by
  obtain ⟨m, hm, hfind⟩ := forward_reference_closure
    ⟨[0, 0, 0, 1, 10, 0, 0, 0, 1, 20], fun _ => .ok 0,
      fun h _ => if h = [10] then .ok [OsmObj.way ⟨1, [2], []⟩]
        else .ok [OsmObj.node ⟨2, 0, 0, []⟩]⟩
    (fun o => match o with | .way _ => true | _ => false)
    rfl (by decide) ⟨1, [2], []⟩ (by decide) rfl 2 (by decide)
    ⟨2, 0, 0, []⟩ (by decide) rfl
  have hpin : (Except.ok m : Except Error (List (OsmId × OsmObj))) =
      .ok [(OsmId.way 1, OsmObj.way ⟨1, [2], []⟩),
           (OsmId.node 2, OsmObj.node ⟨2, 0, 0, []⟩)] := by
    rw [← hm]
    rfl
  obtain rfl := (Except.ok.injEq _ _).mp hpin
  exact ⟨hfind, hm⟩

/-- C3: All-or-nothing failure of the dependency-closure query: a decode
error anywhere makes the whole query return that error; the query returns
a map only on an error-free scan. -/
theorem query_all_or_nothing (r : OsmPbfReader) (pred : OsmObj → Bool) :
    (∀ e, firstErr (OsmPbfReader.blocks r) = some e →
       get_objs_and_deps r pred = .error e) ∧
    (firstErr (OsmPbfReader.blocks r) = none →
       ∃ m, get_objs_and_deps r pred = .ok m) := by
  constructor
  · intro e he
    exact resolve_error _ pred e he
  · intro hok
    obtain ⟨m, hm, _⟩ := resolve_spec _ pred hok
    exact ⟨m, hm⟩

/-- C3 witness: a file whose single segment fails to decode makes the
query fail with exactly that error. -/
theorem query_all_or_nothing_witness :
    firstErr (OsmPbfReader.blocks ⟨[0, 0, 0, 0], fun _ => .ok 0,
      fun _ _ => .error .formatError⟩) = some .formatError ∧
    get_objs_and_deps ⟨[0, 0, 0, 0], fun _ => .ok 0,
      fun _ _ => .error .formatError⟩ (fun _ => true) = .error .formatError :=
  ⟨rfl, (query_all_or_nothing ⟨[0, 0, 0, 0], fun _ => .ok 0,
    fun _ _ => .error .formatError⟩ (fun _ => true)).1 .formatError rfl⟩

/-- C4: Dangling-reference tolerance: on an error-free file the query
succeeds; its keys all come from the file (so an id occurring nowhere has
no entry), and every direct reference that occurs somewhere in the file
is resolved in the map. -/
theorem dangling_reference_tolerance (r : OsmPbfReader) (pred : OsmObj → Bool)
    (hok : firstErr (OsmPbfReader.blocks r) = none) :
    ∃ m, get_objs_and_deps r pred = .ok m ∧
      (∀ k ∈ m.map Prod.fst,
         k ∈ (blocksObjs (OsmPbfReader.blocks r)).map OsmObj.id) ∧
      (∀ k v, mapFind k m = some v → ∀ d ∈ OsmObj.deps v,
         d ∈ (blocksObjs (OsmPbfReader.blocks r)).map OsmObj.id →
           (mapFind d m).isSome = true) := by
  obtain ⟨m, hm, hsound, _, _, _, hclosure⟩ :=
    resolve_spec (OsmPbfReader.blocks r) pred hok
  refine ⟨m, hm, ?_, ?_⟩
  · intro k hk
    obtain ⟨v, hv⟩ := Option.isSome_iff_exists.mp ((mapFind_isSome_iff k m).mpr hk)
    obtain ⟨hvm, hvid⟩ := hsound k v hv
    exact hvid ▸ List.mem_map_of_mem OsmObj.id hvm
  · intro k v hv d hd hdf
    rcases hclosure k v hv d hd with h' | h'
    · exact h'
    · exact absurd hdf h'

/-- C4 witness: a way wanting node id 99, which occurs nowhere: the
query succeeds and the result has no entry for node 99. -/
theorem dangling_reference_tolerance_witness :
    firstErr (OsmPbfReader.blocks ⟨[0, 0, 0, 0], fun _ => .ok 0,
      fun _ _ => .ok [.way ⟨1, [99], []⟩]⟩) = none ∧
    get_objs_and_deps ⟨[0, 0, 0, 0], fun _ => .ok 0,
        fun _ _ => .ok [.way ⟨1, [99], []⟩]⟩ (fun _ => true) =
      .ok [(OsmId.way 1, OsmObj.way ⟨1, [99], []⟩)] ∧
    mapFind (OsmId.node 99) [(OsmId.way 1, OsmObj.way ⟨1, [99], []⟩)] = none := by
  obtain ⟨m, hm, hkeys, _⟩ := dangling_reference_tolerance
    ⟨[0, 0, 0, 0], fun _ => .ok 0, fun _ _ => .ok [.way ⟨1, [99], []⟩]⟩
    (fun _ => true) rfl
  have hpin : (Except.ok m : Except Error (List (OsmId × OsmObj))) =
      .ok [(OsmId.way 1, OsmObj.way ⟨1, [99], []⟩)] := by
    rw [← hm]
    rfl
  obtain rfl := (Except.ok.injEq _ _).mp hpin
  refine ⟨rfl, hm, ?_⟩
  cases hfind : mapFind (OsmId.node 99)
      [(OsmId.way 1, OsmObj.way ⟨1, [99], []⟩)] with
  | none => rfl
  | some v =>
    exfalso
    have hmem := hkeys (OsmId.node 99) ((mapFind_isSome_iff _ _).mp
      (by rw [hfind]; rfl))
    exact absurd hmem (by decide)

/-- C8: Concurrent-pipeline order preservation: for any worker count K
between 1 and the segment count and any worker-completion order chosen by
the oracle, the pipeline emits the decoded blocks in input order, equal
to strictly sequential decoding. -/
theorem pipeline_order_preservation {σ β : Type} (segs : List σ)
    (decode : σ → β) (d : β) (K : Nat) (oracle : Nat → Nat)
    (hK1 : 1 ≤ K) (_hK2 : K ≤ segs.length) :
    runPipeline (segs.map decode) d K oracle = segs.map decode :=
  runPipeline_eq (segs.map decode) d K oracle hK1

/-- C8 witness: three segments, two workers, an adversarial completion
oracle: output equals the sequential decode. -/
theorem pipeline_order_preservation_witness :
    1 ≤ 2 ∧ 2 ≤ ([10, 20, 30] : List Nat).length ∧
    runPipeline (([10, 20, 30] : List Nat).map (fun x => x * 2)) 0 2
        (fun t => t) = ([10, 20, 30] : List Nat).map (fun x => x * 2) :=
  ⟨by decide, by decide,
    pipeline_order_preservation [10, 20, 30] (fun x => x * 2) 0 2
      (fun t => t) (by decide) (by decide)⟩

/-- C9: The deprecated top-level get_objs_and_deps of
src/src/lib.rs:154-162 is extensionally equal to the method it delegates
to. -/
theorem deprecated_get_objs_and_deps_eq (reader : OsmPbfReader)
    (pred : OsmObj → Bool) :
    get_objs_and_deps reader pred =
      OsmPbfReader.get_objs_and_deps reader pred := rfl

/-- C10: Empty input: a zero-byte source yields no flattened objects and
no error, and the dependency-closure query on it returns the empty map. -/
theorem empty_input_behaviour (r : OsmPbfReader) (pred : OsmObj → Bool)
    (hb : r.bytes = []) :
    OsmPbfReader.iter r = [] ∧
    (∀ e : Error, Except.error e ∉ OsmPbfReader.iter r) ∧
    OsmPbfReader.get_objs_and_deps r pred = .ok [] := by
  have hblocks : OsmPbfReader.blocks r = [] := by
    simp only [OsmPbfReader.blocks, hb]
    rfl
  refine ⟨?_, ?_, ?_⟩
  · simp only [OsmPbfReader.iter, hblocks]
    rfl
  · intro e
    simp only [OsmPbfReader.iter, hblocks]
    simp
  · simp only [OsmPbfReader.get_objs_and_deps, hblocks]
    rfl

/-- C10 witness: the empty-input theorem applied to a concrete reader
over zero bytes. -/
theorem empty_input_behaviour_witness :
    (OsmPbfReader.mk [] (fun _ => .ok 0) (fun _ _ => .ok [])).bytes = [] ∧
    OsmPbfReader.iter ⟨[], fun _ => .ok 0, fun _ _ => .ok []⟩ = [] ∧
    OsmPbfReader.get_objs_and_deps ⟨[], fun _ => .ok 0, fun _ _ => .ok []⟩
      (fun _ => true) = .ok [] :=
  ⟨rfl,
    (empty_input_behaviour ⟨[], fun _ => .ok 0, fun _ _ => .ok []⟩
      (fun _ => true) rfl).1,
    (empty_input_behaviour ⟨[], fun _ => .ok 0, fun _ _ => .ok []⟩
      (fun _ => true) rfl).2.2⟩

end Osm
